import Mathlib

/-!
The recency actor and the response record of the REST client cache.

A shallow embedding of `src/rest/cache.go` (the goroutine `lruOperations` that owns the
LRU list) and of `src/rest/response.go` (`size`, `FillUp`, `CacheHit`).

Pointers are addresses (`Nat`); a nil pointer is `none`.  A Go panic (nil dereference)
is the result `none` of a step.
-/

namespace Rest

/-! ## `container/list` as used by the cache -/

/-- One `list.Element`: the node at address `addr` holding `Value` (always the string
that `PushFront` was given). -/
structure Element where
  addr : Nat
  Value : String
deriving DecidableEq, Repr

/-- Whether the node at address `a` is linked into the list: Go's `e.list == l`.
`Remove` sets `e.list = nil`, `PushFront` allocates a new node with `e.list = l`. -/
def linked (l : List Element) (a : Nat) : Bool :=
  l.any (fun e => e.addr == a)

/-- Unlinks the node at address `a` (the body of `List.remove`). -/
def unlink (l : List Element) (a : Nat) : List Element :=
  l.filter (fun e => e.addr != a)

/-- Go `(*List).MoveToFront(e)`: `if e.list != l || l.root.next == e { return }`,
otherwise `e` is moved behind the root.  A nil `e` panics on `e.list`. -/
def MoveToFront (l : List Element) (e : Option Nat) : Option (List Element) :=
  match e with
  | none => none
  | some a =>
    match l.find? (fun x => x.addr == a) with
    | none => some l
    | some x =>
      if l.head?.map Element.addr = some a then some l
      else some (x :: unlink l a)

/-- Go `(*List).Remove(e)`: `if e.list == l { l.remove(e) }`.  A nil `e` panics. -/
def Remove (l : List Element) (e : Option Nat) : Option (List Element) :=
  match e with
  | none => none
  | some a => if linked l a then some (unlink l a) else some l

/-- Go `(*List).PushFront(v)`: a newly allocated node (address `fresh`) in front. -/
def PushFront (l : List Element) (fresh : Nat) (v : String) : List Element :=
  ⟨fresh, v⟩ :: l

/-- Go `(*List).Back()`: nil for the empty list, else the last node. -/
def Back (l : List Element) : Option Element :=
  l.getLast?

/-! ## The LRU goroutine -/

/-- The constants of `type lruOperation int`. -/
abbrev lruOperation := Int

abbrev move : lruOperation := 0
abbrev push : lruOperation := 1
abbrev delete : lruOperation := 2
abbrev last : lruOperation := 3

/-- Go `lruMsg`: an operation and a `*Response` (nil is `none`). -/
structure lruMsg where
  operation : lruOperation
  resp : Option Nat
deriving DecidableEq, Repr

/-- The part of a `Response` that the LRU goroutine reads and writes:
`requestURL` is `r.Request.URL.String()` (`none` when `Request` or `URL` is nil, where
the call panics) and `listElement` is the `*list.Element` handle. -/
structure LruFields where
  requestURL : Option String
  listElement : Option Nat
deriving DecidableEq, Repr

/-- What `lruOperations` owns and reaches: `lruList` of `resourceTTLLRUMap`, the
allocator position for list nodes, and the responses on the heap (by address). -/
structure LruState where
  lruList : List Element
  nextAddr : Nat
  responses : Nat → LruFields

/-- The state built by `init()`: `list.New()`, no node allocated, and responses that
have never been pushed (nil `listElement`), whose request URL is given by `url`. -/
def initial (url : Nat → Option String) : LruState :=
  { lruList := [], nextAddr := 0, responses := fun r => ⟨url r, none⟩ }

/-- The keys of the recency list, front to back. -/
def LruState.keys (st : LruState) : List String :=
  st.lruList.map Element.Value

/-- One iteration of the `for` loop of `lruOperations` on the received message:
`none` is a panic, otherwise the new state and the key sent on `popChan`, if any. -/
def lruStep (st : LruState) (msg : lruMsg) : Option (LruState × Option String) :=
  if msg.operation = move then
    match msg.resp with
    | none => none
    | some r =>
      match MoveToFront st.lruList (st.responses r).listElement with
      | none => none
      | some l => some ({ st with lruList := l }, none)
  else if msg.operation = push then
    match msg.resp with
    | none => none
    | some r =>
      match (st.responses r).requestURL with
      | none => none
      | some k =>
        some ({ lruList := PushFront st.lruList st.nextAddr k
                nextAddr := st.nextAddr + 1
                responses := fun x =>
                  if x = r then ⟨(st.responses r).requestURL, some st.nextAddr⟩
                  else st.responses x }, none)
  else if msg.operation = delete then
    match msg.resp with
    | none => none
    | some r =>
      match Remove st.lruList (st.responses r).listElement with
      | none => none
      | some l => some ({ st with lruList := l }, none)
  else if msg.operation = last then
    match Back st.lruList with
    | none => none
    | some e => some (st, some e.Value)
  else some (st, none)

/-- The goroutine `lruOperations` on a finite sequence of messages taken from `lruChan`:
the final state and the keys sent on `popChan`, or `none` when a step panics. -/
def lruOperations (st : LruState) : List lruMsg → Option (LruState × List String)
  | [] => some (st, [])
  | msg :: rest =>
    match lruStep st msg with
    | none => none
    | some (st1, out) =>
      match lruOperations st1 rest with
      | none => none
      | some (st2, outs) => some (st2, out.toList ++ outs)

/-! ## Histories of commands -/

/-- The message is a `push` for the response `r`. -/
def pushOf (m : lruMsg) (r : Nat) : Bool :=
  m.operation == push && m.resp == some r

/-- The message touches the response `r`: it is a `push` or a `move` for it. -/
def touches (m : lruMsg) (r : Nat) : Bool :=
  (m.operation == push || m.operation == move) && m.resp == some r

/-- The response `r` has been pushed somewhere in the history. -/
def pushed (cmds : List lruMsg) (r : Nat) : Bool :=
  cmds.any (fun m => pushOf m r)

/-- Scanning a history from its most recent command backwards: the position of the
first command found that touches `r`, 0 when there is none. -/
def lastTouchRev : List lruMsg → Nat → Nat
  | [], _ => 0
  | m :: older, r => if touches m r then older.length + 1 else lastTouchRev older r

/-- The position (counted from 1) of the most recent push-or-move for `r` in the history,
0 when `r` was never touched. -/
def lastTouch (cmds : List lruMsg) (r : Nat) : Nat :=
  lastTouchRev cmds.reverse r

/-- The response `r` is the one whose most recent push-or-move is the oldest among all
pushed responses. -/
def isVictim (cmds : List lruMsg) (r : Nat) : Prop :=
  pushed cmds r = true ∧ ∀ r1, pushed cmds r1 = true → lastTouch cmds r ≤ lastTouch cmds r1

/-- The command `m`, arriving after the history `pre`, is not a `delete`, and if it is a
`move` its response has been pushed before, and if it is a `push` its response has not. -/
def traceStepOK (pre : List lruMsg) (m : lruMsg) : Bool :=
  m.operation != delete &&
  match m.resp with
  | none => true
  | some r => (m.operation != move || pushed pre r) && (m.operation != push || !pushed pre r)

/-- Every response is pushed once, before any move for it, and no delete occurs, in the
commands `cmds` that follow the history `pre`. -/
def pushedOnceBeforeMoves : List lruMsg → List lruMsg → Bool
  | _, [] => true
  | pre, m :: ms => traceStepOK pre m && pushedOnceBeforeMoves (pre ++ [m]) ms

/-! ## Protocols of the callers -/

/-- The Put protocol at one command: a `push` for a key is issued only when no node of
the list holds that key. -/
def pushAllowed (st : LruState) (m : lruMsg) : Bool :=
  if m.operation = push then
    match m.resp with
    | none => true
    | some r =>
      match (st.responses r).requestURL with
      | none => true
      | some k => !st.keys.contains k
  else true

/-- The command sequence follows the Put protocol from the state `st` on, as far as it is
processed. -/
def followsPut : LruState → List lruMsg → Bool
  | _, [] => true
  | st, m :: ms =>
    pushAllowed st m &&
    match lruStep st m with
    | none => true
    | some (st1, _) => followsPut st1 ms

/-- Traffic as the safety claim describes it, at one command arriving in state `st` after
the history `pre`: a `move` or `delete` is for a response that has been pushed before and
has a request URL, and a `last` arrives while the list is non-empty. -/
def trafficStepOK (st : LruState) (pre : List lruMsg) (m : lruMsg) : Bool :=
  (if m.operation = move ∨ m.operation = delete then
    match m.resp with
    | none => false
    | some r => pushed pre r && ((st.responses r).requestURL).isSome
  else true) &&
  (if m.operation = last then !st.lruList.isEmpty else true)

/-- The traffic condition on a command sequence, as far as it is processed. -/
def wellFormedTraffic : LruState → List lruMsg → List lruMsg → Bool
  | _, _, [] => true
  | st, pre, m :: ms =>
    trafficStepOK st pre m &&
    match lruStep st m with
    | none => true
    | some (st1, _) => wellFormedTraffic st1 (pre ++ [m]) ms

/-- Every `push` of the sequence carries a response, and that response has a request
URL. -/
def pushesHaveURL (url : Nat → Option String) (cmds : List lruMsg) : Bool :=
  cmds.all (fun m => m.operation != push ||
    match m.resp with
    | none => false
    | some r => (url r).isSome)

/-! ## `response.go` -/

/-- The fields of the embedded `*http.Response` that `response.go` reads; `contentType`
is the value of `Header.Get("Content-Type")`. -/
structure HttpResponse where
  Proto : String
  Status : String
  contentType : String
deriving DecidableEq, Repr

/-- A value held in an `interface{}`, by dynamic type. -/
inductive AnyValue where
  | bool (b : Bool)
  | int (n : Int)
  | str (s : String)
deriving DecidableEq, Repr

/-- Go `Response`.  Pointers are optional addresses; `httpResponse` is the embedded
`*http.Response`; `cacheHit` is the content of the `atomic.Value`: `none` while nothing
has been stored. -/
structure Response where
  httpResponse : Option HttpResponse
  Err : Option String
  byteBody : List UInt8
  listElement : Option Nat
  skipListElement : Option Nat
  ttl : Option Nat
  lastModified : Option Nat
  etag : String
  revalidate : Bool
  cacheHit : Option AnyValue
deriving DecidableEq, Repr

/-- The results of the `unsafe.Sizeof` expressions in `size`, which the compiler fixes
from the types alone (the operand is not evaluated).  `skipListNode` is declared outside
the files given, so its size is a parameter like the others. -/
structure Layout where
  sizeofResponse : Nat
  sizeofElement : Nat
  sizeofSkipListNode : Nat
  sizeofTime : Nat
deriving DecidableEq, Repr

/-- Conversion of an integer to `int64` (two's complement wrap-around). -/
def wrapInt64 (x : Int) : Int :=
  (x + 9223372036854775808) % 18446744073709551616 - 9223372036854775808

/-- The largest `int64`, 2^63 - 1. -/
def maxInt64 : Int := 9223372036854775807

/-- Go `len` of a string: its number of bytes. -/
def strLen (s : String) : Nat :=
  s.utf8ByteSize

/-- Go `(*Response).size`: `none` is the panic on `r.Response.Proto` when the embedded
response is nil. -/
def Response.size (L : Layout) (r : Response) : Option Int :=
  let size := wrapInt64 L.sizeofResponse
  let size := wrapInt64 (size + wrapInt64 r.byteBody.length)
  let size := wrapInt64 (size + wrapInt64 L.sizeofElement)
  let size := wrapInt64 (size + wrapInt64 L.sizeofSkipListNode)
  let size := wrapInt64 (size + wrapInt64 L.sizeofTime)
  let size := wrapInt64 (size + wrapInt64 L.sizeofTime)
  let size := wrapInt64 (size + wrapInt64 (strLen r.etag))
  match r.httpResponse with
  | none => none
  | some h =>
    let size := wrapInt64 (size + wrapInt64 (strLen h.Proto))
    let size := wrapInt64 (size + wrapInt64 (strLen h.Status))
    some size

/-- The part of `size` that comes from the types alone. -/
def Layout.overhead (L : Layout) : Nat :=
  L.sizeofResponse + L.sizeofElement + L.sizeofSkipListNode + L.sizeofTime + L.sizeofTime

/-- Go `(*Response).CacheHit`: `hit, ok := r.cacheHit.Load().(bool)`. -/
def Response.CacheHit (r : Response) : Bool :=
  let (hit, ok) : Bool × Bool :=
    match r.cacheHit with
    | some (AnyValue.bool b) => (b, true)
    | _ => (false, false)
  if hit && ok then true else false

/-- Whether the characters `p` stand at the start of the characters `s`. -/
def startsWith : List Char → List Char → Bool
  | _, [] => true
  | [], _ :: _ => false
  | c :: cs, p :: ps => c == p && startsWith cs ps

/-- Whether the characters `sub` stand somewhere in the characters `s`. -/
def containsChars : List Char → List Char → Bool
  | [], sub => sub.isEmpty
  | c :: cs, sub => startsWith (c :: cs) sub || containsChars cs sub

/-- Go `strings.Contains`. -/
def stringsContains (s substr : String) : Bool :=
  containsChars s.toList substr.toList

/-- The library functions that `FillUp` calls: the two decoders (each returns the filled
target and its error, nil being `none`), `http.DetectContentType` and
`strings.ToLower`. -/
structure Library (T E : Type) where
  jsonUnmarshal : List UInt8 → T → T × Option E
  xmlUnmarshal : List UInt8 → T → T × Option E
  DetectContentType : List UInt8 → String
  ToLower : String → String

/-- A Go `error` returned by `FillUp`: an error value of a decoder, or the value that
`fmt.Errorf` allocates in `FillUp` itself. -/
inductive FillError (E : Type) where
  | decoder (e : E)
  | errorf (msg : String)
deriving DecidableEq, Repr

def cTypeJSON : String := "application/json"

def cTypeXML : String := "application/xml"

/-- The `for i := 0; i < 2; i++` loop of `FillUp`, with `n = 2 - i` rounds to go. -/
def fillUpLoop {T E : Type} (lib : Library T E) (byteBody : List UInt8) (fill : T) :
    Nat → Nat → String → T × Option (FillError E)
  | 0, _, _ => (fill, some (FillError.errorf "Response format neither JSON nor XML"))
  | n + 1, i, cType =>
    if stringsContains cType cTypeJSON then
      let (t, e) := lib.jsonUnmarshal byteBody fill
      (t, e.map FillError.decoder)
    else if stringsContains cType cTypeXML then
      let (t, e) := lib.xmlUnmarshal byteBody fill
      (t, e.map FillError.decoder)
    else if i = 0 then
      fillUpLoop lib byteBody fill n (i + 1) (lib.DetectContentType byteBody)
    else
      fillUpLoop lib byteBody fill n (i + 1) cType

/-- Go `(*Response).FillUp`: the filled target and the returned error; `none` is the
panic on `r.Header` when the embedded response is nil. -/
def Response.FillUp {T E : Type} (lib : Library T E) (r : Response) (fill : T) :
    Option (T × Option (FillError E)) :=
  match r.httpResponse with
  | none => none
  | some h => some (fillUpLoop lib r.byteBody fill 2 0 (lib.ToLower h.contentType))

/-- What `FillUp` makes of the result of a decoder. -/
def decoded {T E : Type} (p : T × Option E) : T × Option (FillError E) :=
  (p.1, p.2.map FillError.decoder)

/-- A layout for examples: the sizes of the 64-bit gc compiler, and 32 bytes for the
skip list node. -/
def sampleLayout : Layout := ⟨120, 40, 32, 24⟩

/-- A library for examples: decoders that accept every body, a detector that knows
only XML and plain text. -/
def sampleLibrary : Library Nat String where
  jsonUnmarshal := fun b _ => (b.length, none)
  xmlUnmarshal := fun b t => (t, if b.isEmpty then some "EOF" else none)
  DetectContentType := fun b =>
    if b.head? = some 60 then "text/xml; charset=utf-8" else "text/plain; charset=utf-8"
  ToLower := fun s => String.mk (s.toList.map Char.toLower)

def sampleResponse : Response where
  httpResponse := some ⟨"HTTP/1.1", "200 OK", "Application/JSON; charset=utf-8"⟩
  Err := none
  byteBody := [123, 125]
  listElement := none
  skipListElement := none
  ttl := none
  lastModified := none
  etag := "abc"
  revalidate := false
  cacheHit := some (AnyValue.bool true)

/-- A second response for examples: the same metadata, an empty body, and a list handle
and a deadline set. -/
def shortResponse : Response :=
  { sampleResponse with byteBody := [], listElement := some 7, ttl := some 1,
                        cacheHit := none }

/-- A response of a failed request: the embedded `*http.Response` is nil. -/
def failedResponse : Response :=
  { sampleResponse with httpResponse := none, Err := some "connection refused" }

/-- A response with plain text in an XML envelope and no usable header. -/
def sniffedResponse : Response :=
  { sampleResponse with httpResponse := some ⟨"HTTP/1.1", "200 OK", ""⟩, byteBody := [60, 97, 62] }

/-! ## Invariants and concrete runs used in the proofs -/

/-- What holds of the list and of the handles in every state the goroutine can be in:
nodes are distinct objects, allocated below `nextAddr`, and a handle that points to a
linked node points to the node pushed for its own response. -/
structure LruState.WF (st : LruState) : Prop where
  nodup : (st.lruList.map Element.addr).Nodup
  lt_next : ∀ e ∈ st.lruList, e.addr < st.nextAddr
  handle_lt : ∀ r a, (st.responses r).listElement = some a → a < st.nextAddr
  handle_key : ∀ r e, e ∈ st.lruList → (st.responses r).listElement = some e.addr →
    (st.responses r).requestURL = some e.Value
  handle_inj : ∀ r1 r2 a, (st.responses r1).listElement = some a →
    (st.responses r2).listElement = some a → r1 = r2

/-- Request URLs for examples: responses 0 to 3 have the keys a to d, every other
response has a nil URL. -/
def demoUrl : Nat → Option String
  | 0 => some "a"
  | 1 => some "b"
  | 2 => some "c"
  | 3 => some "d"
  | _ => none

/-- The run push a, push b, push c, move a, push d. -/
def demoCmds : List lruMsg :=
  [⟨push, some 0⟩, ⟨push, some 1⟩, ⟨push, some 2⟩, ⟨move, some 0⟩, ⟨push, some 3⟩]

/-- The state after push a, push b, push c, move a, push d. -/
def demoState : LruState :=
  match lruOperations (initial demoUrl) demoCmds with
  | some (st, _) => st
  | none => initial demoUrl

/-- The node that a response owns: its handle and its key. -/
def nodeOf (st : LruState) (r : Nat) : Element :=
  ⟨((st.responses r).listElement).getD 0, ((st.responses r).requestURL).getD ""⟩

/-- The link between a history without deletes and the state it leads to: the list is
the list of the nodes of the pushed responses `order`, most recently touched first. -/
structure VictimInv (pre : List lruMsg) (st : LruState) (order : List Nat) : Prop where
  nodup : (st.lruList.map Element.addr).Nodup
  lt_next : ∀ e ∈ st.lruList, e.addr < st.nextAddr
  list_eq : st.lruList = order.map (nodeOf st)
  has_key : ∀ r ∈ order, (st.responses r).requestURL ≠ none
  mem_iff : ∀ r, r ∈ order ↔ pushed pre r = true
  touched : ∀ r, 0 < lastTouch pre r → pushed pre r = true
  sorted : order.Pairwise (fun a b => lastTouch pre b < lastTouch pre a)

/-- The message is a `delete` for the response `r`. -/
def deleteOf (m : lruMsg) (r : Nat) : Bool :=
  m.operation == delete && m.resp == some r

/-- Every node of the list is the handle of a response, and holds the key of that
response. -/
def Owned (st : LruState) : Prop :=
  ∀ e ∈ st.lruList, ∃ r, (st.responses r).listElement = some e.addr ∧
    (st.responses r).requestURL = some e.Value

/-- The handle of `r` points to a node that is linked in the list. -/
def Live (st : LruState) (r : Nat) : Prop :=
  ∃ e ∈ st.lruList, (st.responses r).listElement = some e.addr

/-- The handle of `r` points to a node that is not linked (any more). -/
def Stale (st : LruState) (r : Nat) : Prop :=
  ∃ a, (st.responses r).listElement = some a ∧ ∀ e ∈ st.lruList, e.addr ≠ a

/-- A run that follows the Put protocol and pushes response 0 again after its delete. -/
def putCmds : List lruMsg :=
  [⟨push, some 0⟩, ⟨push, some 1⟩, ⟨delete, some 0⟩, ⟨push, some 0⟩, ⟨move, some 1⟩]

/-- The state after `putCmds`. -/
def putState : LruState :=
  match lruOperations (initial demoUrl) putCmds with
  | some (st, _) => st
  | none => initial demoUrl

/-- A run that deletes response 0 and pushes it again, then pushes response 2. -/
def repushCmds : List lruMsg :=
  [⟨push, some 0⟩, ⟨push, some 1⟩, ⟨delete, some 0⟩, ⟨push, some 0⟩, ⟨push, some 2⟩]

/-- A run with a `move` and a `delete` for a response that has been deleted. -/
def staleCmds : List lruMsg :=
  [⟨push, some 0⟩, ⟨push, some 1⟩, ⟨delete, some 0⟩, ⟨move, some 0⟩, ⟨delete, some 0⟩,
   ⟨last, none⟩]

/-! ## Facts about the list operations -/

theorem mem_unlink {l : List Element} {a : Nat} {e : Element} :
    e ∈ unlink l a ↔ e ∈ l ∧ e.addr ≠ a := by
  simp [unlink]

theorem unlink_sublist (l : List Element) (a : Nat) : (unlink l a).Sublist l :=
  List.filter_sublist l

theorem unlink_of_not_linked {l : List Element} {a : Nat} (h : ∀ e ∈ l, e.addr ≠ a) :
    unlink l a = l := by
  unfold unlink
  rw [List.filter_eq_self]
  intro e he
  simpa using h e he

theorem linked_iff {l : List Element} {a : Nat} :
    linked l a = true ↔ ∃ e ∈ l, e.addr = a := by
  simp [linked]

theorem addr_inj {l : List Element} (hnd : (l.map Element.addr).Nodup) {x y : Element}
    (hx : x ∈ l) (hy : y ∈ l) (h : x.addr = y.addr) : x = y :=
  List.inj_on_of_nodup_map hnd hx hy h

theorem unlink_length {l : List Element} (hnd : (l.map Element.addr).Nodup) {e : Element}
    (he : e ∈ l) : (unlink l e.addr).length + 1 = l.length := by
  induction l with
  | nil => simp at he
  | cons h t ih =>
    simp only [List.map_cons, List.nodup_cons, List.mem_map, not_exists, not_and] at hnd
    rcases List.mem_cons.1 he with rfl | het
    · have : unlink (e :: t) e.addr = t := by
        have h2 : unlink t e.addr = t :=
          unlink_of_not_linked (fun x hx hxa => hnd.1 x hx hxa)
        simp [unlink] at h2 ⊢
        exact h2
      rw [this]; simp
    · have hne : h.addr ≠ e.addr := fun hh => hnd.1 e het hh.symm
      have : unlink (h :: t) e.addr = h :: unlink t e.addr := by
        simp [unlink, hne]
      rw [this]; simp [ih hnd.2 het]

theorem find_addr {l : List Element} (hnd : (l.map Element.addr).Nodup) {e : Element}
    (he : e ∈ l) : l.find? (fun x => x.addr == e.addr) = some e := by
  cases hf : l.find? (fun x => x.addr == e.addr) with
  | none =>
    rw [List.find?_eq_none] at hf
    exact absurd (by simp) (hf e he)
  | some x =>
    have hx := List.mem_of_find?_eq_some hf
    have hxa : x.addr = e.addr := by simpa using List.find?_some hf
    rw [addr_inj hnd hx he hxa]

theorem find_addr_none {l : List Element} {a : Nat} (h : ∀ e ∈ l, e.addr ≠ a) :
    l.find? (fun x => x.addr == a) = none := by
  rw [List.find?_eq_none]
  intro x hx
  simpa using h x hx

/-- Moving a linked node: it ends up in front of the other nodes, whose order is kept. -/
theorem MoveToFront_linked {l : List Element} (hnd : (l.map Element.addr).Nodup)
    {e : Element} (he : e ∈ l) :
    MoveToFront l (some e.addr) = some (e :: unlink l e.addr) := by
  unfold MoveToFront
  simp only [find_addr hnd he]
  split_ifs with hh
  · cases l with
    | nil => simp at he
    | cons h t =>
      simp only [List.head?_cons, Option.map_some', Option.some.injEq] at hh
      have hhe : h = e := addr_inj hnd (List.mem_cons_self _ _) he hh
      subst hhe
      simp only [List.map_cons, List.nodup_cons, List.mem_map, not_exists, not_and] at hnd
      have h2 : unlink t h.addr = t :=
        unlink_of_not_linked (fun x hx hxa => hnd.1 x hx hxa)
      have : unlink (h :: t) h.addr = t := by
        simp [unlink] at h2 ⊢
        exact h2
      rw [this]
  · rfl

theorem MoveToFront_not_linked {l : List Element} {a : Nat} (h : ∀ e ∈ l, e.addr ≠ a) :
    MoveToFront l (some a) = some l := by
  unfold MoveToFront
  simp only [find_addr_none h]

theorem Remove_linked {l : List Element} {e : Element} (he : e ∈ l) :
    Remove l (some e.addr) = some (unlink l e.addr) := by
  have : linked l e.addr = true := linked_iff.2 ⟨e, he, rfl⟩
  simp [Remove, this]

theorem Remove_not_linked {l : List Element} {a : Nat} (h : ∀ e ∈ l, e.addr ≠ a) :
    Remove l (some a) = some l := by
  have : linked l a = false := by
    rw [← Bool.not_eq_true, linked_iff]
    rintro ⟨e, he, hea⟩
    exact h e he hea
  simp [Remove, this]

theorem Remove_some (l : List Element) (a : Nat) :
    Remove l (some a) = some (unlink l a) := by
  by_cases h : ∃ e ∈ l, e.addr = a
  · obtain ⟨e, he, rfl⟩ := h
    exact Remove_linked he
  · have h2 : ∀ e ∈ l, e.addr ≠ a := fun e he hea => h ⟨e, he, hea⟩
    rw [Remove_not_linked h2, unlink_of_not_linked h2]

/-! ## Well-formed states of the goroutine -/

theorem initial_wf (url : Nat → Option String) : (initial url).WF := by
  constructor <;> simp [initial]

/-- The shapes of a step that does not panic. -/
theorem lruStep_cases {st st1 : LruState} {m : lruMsg} {out : Option String}
    (h : lruStep st m = some (st1, out)) :
    (m.operation = move ∧ ∃ r a l, m.resp = some r ∧ (st.responses r).listElement = some a ∧
        MoveToFront st.lruList (some a) = some l ∧
        st1 = { st with lruList := l } ∧ out = none) ∨
    (m.operation = push ∧ ∃ r k, m.resp = some r ∧ (st.responses r).requestURL = some k ∧
        st1 = { lruList := ⟨st.nextAddr, k⟩ :: st.lruList
                nextAddr := st.nextAddr + 1
                responses := fun x =>
                  if x = r then ⟨some k, some st.nextAddr⟩
                  else st.responses x } ∧ out = none) ∨
    (m.operation = delete ∧ ∃ r a, m.resp = some r ∧ (st.responses r).listElement = some a ∧
        st1 = { st with lruList := unlink st.lruList a } ∧ out = none) ∨
    (m.operation = last ∧ ∃ e, st.lruList.getLast? = some e ∧ st1 = st ∧
        out = some e.Value) ∨
    (m.operation ≠ move ∧ m.operation ≠ push ∧ m.operation ≠ delete ∧ m.operation ≠ last ∧
        st1 = st ∧ out = none) := by
  unfold lruStep at h
  split_ifs at h with h0 h1 h2 h3
  · left
    refine ⟨h0, ?_⟩
    cases hr : m.resp with
    | none => simp [hr] at h
    | some r =>
      cases ha : (st.responses r).listElement with
      | none => simp [hr, ha, MoveToFront] at h
      | some a =>
        cases hl : MoveToFront st.lruList (some a) with
        | none => simp [hr, ha, hl] at h
        | some l =>
          simp only [hr, ha, hl, Option.some.injEq, Prod.mk.injEq] at h
          exact ⟨r, a, l, rfl, ha, hl, h.1.symm, h.2.symm⟩
  · right; left
    refine ⟨h1, ?_⟩
    cases hr : m.resp with
    | none => simp [hr] at h
    | some r =>
      cases hk : (st.responses r).requestURL with
      | none => simp [hr, hk] at h
      | some k =>
        simp only [hr, hk, PushFront, Option.some.injEq, Prod.mk.injEq] at h
        exact ⟨r, k, rfl, hk, h.1.symm, h.2.symm⟩
  · right; right; left
    refine ⟨h2, ?_⟩
    cases hr : m.resp with
    | none => simp [hr] at h
    | some r =>
      cases ha : (st.responses r).listElement with
      | none => simp [hr, ha, Remove] at h
      | some a =>
        simp only [hr, ha, Remove_some, Option.some.injEq, Prod.mk.injEq] at h
        exact ⟨r, a, rfl, ha, h.1.symm, h.2.symm⟩
  · right; right; right; left
    refine ⟨h3, ?_⟩
    cases he : st.lruList.getLast? with
    | none => simp [Back, he] at h
    | some e =>
      simp only [Back, he, Option.some.injEq, Prod.mk.injEq] at h
      exact ⟨e, rfl, h.1.symm, h.2.symm⟩
  · right; right; right; right
    simp only [Option.some.injEq, Prod.mk.injEq] at h
    exact ⟨h0, h1, h2, h3, h.1.symm, h.2.symm⟩

/-- The result of `MoveToFront` on a well-formed list: a linked node goes in front of the
others, anything else leaves the list as it is. -/
theorem MoveToFront_cases {l l1 : List Element} (hnd : (l.map Element.addr).Nodup)
    {a : Nat} (h : MoveToFront l (some a) = some l1) :
    (∃ e ∈ l, e.addr = a ∧ l1 = e :: unlink l a) ∨ ((∀ e ∈ l, e.addr ≠ a) ∧ l1 = l) := by
  by_cases hl : ∃ e ∈ l, e.addr = a
  · obtain ⟨e, he, rfl⟩ := hl
    rw [MoveToFront_linked hnd he] at h
    exact Or.inl ⟨e, he, rfl, (Option.some.inj h).symm⟩
  · have h2 : ∀ e ∈ l, e.addr ≠ a := fun e he hea => hl ⟨e, he, hea⟩
    rw [MoveToFront_not_linked h2] at h
    exact Or.inr ⟨h2, (Option.some.inj h).symm⟩

theorem nodup_unlink {l : List Element} (hnd : (l.map Element.addr).Nodup) (a : Nat) :
    ((unlink l a).map Element.addr).Nodup :=
  hnd.sublist ((unlink_sublist l a).map _)

theorem nodup_front_unlink {l : List Element} (hnd : (l.map Element.addr).Nodup)
    (e : Element) : ((e :: unlink l e.addr).map Element.addr).Nodup := by
  rw [List.map_cons, List.nodup_cons]
  refine ⟨?_, nodup_unlink hnd _⟩
  rw [List.mem_map]
  rintro ⟨x, hx, hxa⟩
  exact (mem_unlink.1 hx).2 hxa

/-- A state that only relinks nodes of a well-formed state is well-formed. -/
theorem WF_relink {st : LruState} (hwf : st.WF) {l : List Element}
    (hnd : (l.map Element.addr).Nodup) (hsub : ∀ e ∈ l, e ∈ st.lruList) :
    LruState.WF { st with lruList := l } where
  nodup := hnd
  lt_next := fun e he => hwf.lt_next e (hsub e he)
  handle_lt := hwf.handle_lt
  handle_key := fun r e he => hwf.handle_key r e (hsub e he)
  handle_inj := hwf.handle_inj

/-- Every step that does not panic keeps the state well-formed. -/
theorem lruStep_wf {st st1 : LruState} {m : lruMsg} {out : Option String}
    (hwf : st.WF) (h : lruStep st m = some (st1, out)) : st1.WF := by
  rcases lruStep_cases h with ⟨_, r, a, l, _, _, hl, rfl, _⟩ | ⟨_, r, k, _, hk, rfl, _⟩ |
    ⟨_, r, a, _, _, rfl, _⟩ | ⟨_, e, _, rfl, _⟩ | ⟨_, _, _, _, rfl, _⟩
  · rcases MoveToFront_cases hwf.nodup hl with ⟨e, he, rfl, rfl⟩ | ⟨_, rfl⟩
    · refine WF_relink hwf (nodup_front_unlink hwf.nodup e) ?_
      intro x hx
      rcases List.mem_cons.1 hx with rfl | hx
      · exact he
      · exact (mem_unlink.1 hx).1
    · exact hwf
  · constructor
    · simp only [List.map_cons, List.nodup_cons, List.mem_map, not_exists, not_and]
      exact ⟨fun x hx hxa => absurd (hwf.lt_next x hx) (by omega), hwf.nodup⟩
    · intro e he
      rcases List.mem_cons.1 he with rfl | he
      · simp
      · exact Nat.lt_succ_of_lt (hwf.lt_next e he)
    · intro x a hx
      simp only at hx
      split_ifs at hx with hxr
      · simp only [Option.some.injEq] at hx
        exact hx ▸ Nat.lt_succ_self _
      · exact Nat.lt_succ_of_lt (hwf.handle_lt x a hx)
    · intro x e he hx
      simp only at hx ⊢
      rcases List.mem_cons.1 he with rfl | he
      · split_ifs at hx with hxr
        · simp [hxr, hk]
        · exact absurd (hwf.handle_lt x _ hx) (by simp)
      · split_ifs at hx with hxr
        · simp only [Option.some.injEq] at hx
          exact absurd (hwf.lt_next e he) (by omega)
        · simp only [hxr, if_false]
          exact hwf.handle_key x e he hx
    · intro r1 r2 a h1 h2
      simp only at h1 h2
      split_ifs at h1 h2 with hr1 hr2 hr2
      · rw [hr1, hr2]
      · simp only [Option.some.injEq] at h1
        exact absurd (hwf.handle_lt r2 a h2) (by omega)
      · simp only [Option.some.injEq] at h2
        exact absurd (hwf.handle_lt r1 a h1) (by omega)
      · exact hwf.handle_inj r1 r2 a h1 h2
  · exact WF_relink hwf (nodup_unlink hwf.nodup a) (fun x hx => (mem_unlink.1 hx).1)
  · exact hwf
  · exact hwf

/-- A step never changes the request URL of a response. -/
theorem lruStep_requestURL {st st1 : LruState} {m : lruMsg} {out : Option String}
    (h : lruStep st m = some (st1, out)) (r : Nat) :
    (st1.responses r).requestURL = (st.responses r).requestURL := by
  rcases lruStep_cases h with ⟨_, _, _, _, _, _, _, rfl, _⟩ | ⟨_, r0, k, _, hk, rfl, _⟩ |
    ⟨_, _, _, _, _, rfl, _⟩ | ⟨_, _, _, rfl, _⟩ | ⟨_, _, _, _, rfl, _⟩
  · rfl
  · simp only
    split_ifs with hr
    · rw [hr, hk]
    · rfl
  · rfl
  · rfl
  · rfl

/-- Every run that does not panic keeps the state well-formed. -/
theorem lruOperations_wf {cmds : List lruMsg} {st st1 : LruState} {outs : List String}
    (hwf : st.WF) (h : lruOperations st cmds = some (st1, outs)) : st1.WF := by
  induction cmds generalizing st outs with
  | nil =>
    simp only [lruOperations, Option.some.injEq, Prod.mk.injEq] at h
    exact h.1 ▸ hwf
  | cons m ms ih =>
    unfold lruOperations at h
    cases hs : lruStep st m with
    | none => simp [hs] at h
    | some p =>
      obtain ⟨st2, out⟩ := p
      cases hr : lruOperations st2 ms with
      | none => simp [hs, hr] at h
      | some q =>
        obtain ⟨st3, outs3⟩ := q
        simp only [hs, hr, Option.some.injEq, Prod.mk.injEq] at h
        obtain ⟨rfl, -⟩ := h
        exact ih (lruStep_wf hwf hs) hr

theorem demoState_run : lruOperations (initial demoUrl) demoCmds = some (demoState, []) := rfl

theorem demoState_wf : demoState.WF :=
  lruOperations_wf (initial_wf demoUrl) demoState_run

/-! ## The order of the list and the age of the touches -/

theorem pushed_snoc (pre : List lruMsg) (m : lruMsg) (r : Nat) :
    pushed (pre ++ [m]) r = (pushed pre r || pushOf m r) := by
  simp [pushed]

theorem lastTouch_snoc (pre : List lruMsg) (m : lruMsg) (r : Nat) :
    lastTouch (pre ++ [m]) r = if touches m r then pre.length + 1 else lastTouch pre r := by
  simp [lastTouch, lastTouchRev]

theorem lastTouchRev_le (l : List lruMsg) (r : Nat) : lastTouchRev l r ≤ l.length := by
  induction l with
  | nil => simp [lastTouchRev]
  | cons m t ih =>
    simp only [lastTouchRev, List.length_cons]
    split_ifs <;> omega

theorem lastTouch_le (cmds : List lruMsg) (r : Nat) : lastTouch cmds r ≤ cmds.length := by
  have := lastTouchRev_le cmds.reverse r
  simpa [lastTouch] using this

theorem traceStepOK_iff (pre : List lruMsg) (m : lruMsg) :
    traceStepOK pre m = true ↔ m.operation ≠ delete ∧ ∀ r, m.resp = some r →
      (m.operation = move → pushed pre r = true) ∧
      (m.operation = push → pushed pre r = false) := by
  unfold traceStepOK
  cases hr : m.resp with
  | none => simp
  | some r =>
    simp only [Bool.and_eq_true, bne_iff_ne, ne_eq, Bool.or_eq_true, Bool.not_eq_true',
      Option.some.injEq, forall_eq']
    constructor
    · rintro ⟨h1, h2, h3⟩
      exact ⟨h1, fun h => h2.resolve_left (fun hn => hn h),
        fun h => h3.resolve_left (fun hn => hn h)⟩
    · rintro ⟨h1, h2, h3⟩
      refine ⟨h1, ?_, ?_⟩
      · by_cases h : m.operation = move
        · exact Or.inr (h2 h)
        · exact Or.inl h
      · by_cases h : m.operation = push
        · exact Or.inr (h3 h)
        · exact Or.inl h

/-- In a list ordered by strictly decreasing age stamp, an element with the least stamp
is the last one. -/
theorem getLast_of_least {g : Nat → Nat} {l : List Nat}
    (hs : l.Pairwise (fun a b => g b < g a)) {r : Nat} (hr : r ∈ l)
    (hmin : ∀ x ∈ l, g r ≤ g x) : l.getLast? = some r := by
  induction l with
  | nil => simp at hr
  | cons x t ih =>
    cases t with
    | nil =>
      simp only [List.mem_singleton] at hr
      simp [hr]
    | cons y t =>
      rw [List.getLast?_cons_cons]
      rw [List.pairwise_cons] at hs
      rcases List.mem_cons.1 hr with rfl | hrt
      · have h1 := hs.1 y (List.mem_cons_self _ _)
        have h2 := hmin y (by simp)
        omega
      · exact ih hs.2 hrt (fun z hz => hmin z (List.mem_cons_of_mem _ hz))

/-- In a list ordered by strictly decreasing age stamp, the last element has the least
stamp. -/
theorem least_of_getLast {g : Nat → Nat} {l : List Nat}
    (hs : l.Pairwise (fun a b => g b < g a)) {r : Nat} (hr : l.getLast? = some r) :
    ∀ x ∈ l, g r ≤ g x := by
  induction l with
  | nil => simp at hr
  | cons x t ih =>
    cases t with
    | nil =>
      simp only [List.getLast?_singleton, Option.some.injEq] at hr
      intro z hz
      simp only [List.mem_singleton] at hz
      rw [hz, hr]
    | cons y t =>
      rw [List.getLast?_cons_cons] at hr
      rw [List.pairwise_cons] at hs
      intro z hz
      rcases List.mem_cons.1 hz with rfl | hzt
      · have hrm : r ∈ y :: t := List.mem_of_getLast?_eq_some hr
        exact Nat.le_of_lt (hs.1 r hrm)
      · exact ih hs.2 hr z hzt

theorem pushOf_iff (m : lruMsg) (r : Nat) :
    pushOf m r = true ↔ m.operation = push ∧ m.resp = some r := by
  simp [pushOf]

theorem touches_iff (m : lruMsg) (r : Nat) :
    touches m r = true ↔ (m.operation = push ∨ m.operation = move) ∧ m.resp = some r := by
  simp [touches]

theorem unlink_map (f : Nat → Element) {order : List Nat}
    (hnd : ((order.map f).map Element.addr).Nodup) {r : Nat} (hr : r ∈ order) :
    unlink (order.map f) (f r).addr = (order.filter (fun x => x ≠ r)).map f := by
  unfold unlink
  rw [List.filter_map]
  congr 1
  apply List.filter_congr
  intro x hx
  rw [List.map_map] at hnd
  have hinj : (f x).addr = (f r).addr → x = r :=
    fun hh => List.inj_on_of_nodup_map hnd hx hr hh
  by_cases hxr : x = r
  · simp [hxr]
  · have : (f x).addr ≠ (f r).addr := fun hh => hxr (hinj hh)
    simp [hxr, this]

theorem VictimInv.same {pre : List lruMsg} {st : LruState} {order : List Nat}
    (h : VictimInv pre st order) {m : lruMsg} (hm : ∀ r, touches m r = false) :
    VictimInv (pre ++ [m]) st order := by
  have hp : ∀ r, pushOf m r = false := by
    intro r
    rw [← Bool.not_eq_true, pushOf_iff]
    rintro ⟨h1, h2⟩
    have := hm r
    rw [← Bool.not_eq_true, touches_iff] at this
    exact this ⟨Or.inl h1, h2⟩
  have hl : ∀ r, lastTouch (pre ++ [m]) r = lastTouch pre r := by
    intro r; rw [lastTouch_snoc, hm]; simp
  have hpu : ∀ r, pushed (pre ++ [m]) r = pushed pre r := by
    intro r; rw [pushed_snoc, hp]; simp
  refine ⟨h.nodup, h.lt_next, h.list_eq, h.has_key, ?_, ?_, ?_⟩
  · simpa only [hpu] using h.mem_iff
  · simpa only [hpu, hl] using h.touched
  · simpa only [hl] using h.sorted

/-- One step keeps the link between history and state. -/
theorem VictimInv.step {pre : List lruMsg} {st st1 : LruState} {order : List Nat}
    (h : VictimInv pre st order) {m : lruMsg} {out : Option String}
    (hok : traceStepOK pre m = true) (hs : lruStep st m = some (st1, out)) :
    ∃ order1, VictimInv (pre ++ [m]) st1 order1 := by
  obtain ⟨hnodel, hmr⟩ := (traceStepOK_iff pre m).1 hok
  rcases lruStep_cases hs with ⟨hop, r, a, l, hr, ha, hl, rfl, _⟩ | ⟨hop, r, k, hr, hk, rfl, _⟩ |
    ⟨hop, _⟩ | ⟨hop, e, _, rfl, _⟩ | ⟨h0, h1, _, _, rfl, _⟩
  · -- move
    have hpr : pushed pre r = true := (hmr r hr).1 hop
    have hro : r ∈ order := (h.mem_iff r).2 hpr
    have hnode : (nodeOf st r).addr = a := by simp [nodeOf, ha]
    have hmem : nodeOf st r ∈ st.lruList := by
      rw [h.list_eq]; exact List.mem_map_of_mem _ hro
    rw [← hnode, MoveToFront_linked h.nodup hmem] at hl
    have hl := (Option.some.inj hl).symm
    subst hl
    have hnd2 := h.nodup
    rw [h.list_eq] at hnd2
    have htm : ∀ x, touches m x = true ↔ x = r := by
      intro x
      rw [touches_iff, hr]
      simp [hop, eq_comm]
    have hpm : ∀ x, pushOf m x = false := by
      intro x
      rw [← Bool.not_eq_true, pushOf_iff]
      rintro ⟨h1, _⟩
      rw [hop] at h1
      exact absurd h1 (by decide)
    have hpu : ∀ x, pushed (pre ++ [m]) x = pushed pre x := by
      intro x; rw [pushed_snoc, hpm]; simp
    have hlr : lastTouch (pre ++ [m]) r = pre.length + 1 := by
      rw [lastTouch_snoc, (htm r).2 rfl]; simp
    have hlx : ∀ x, x ≠ r → lastTouch (pre ++ [m]) x = lastTouch pre x := by
      intro x hx
      have : touches m x = false := by
        rw [← Bool.not_eq_true, htm]; exact hx
      rw [lastTouch_snoc, this]; simp
    refine ⟨r :: order.filter (fun x => x ≠ r), ?_, ?_, ?_, ?_, ?_, ?_, ?_⟩
    · exact nodup_front_unlink h.nodup _
    · intro e he
      rcases List.mem_cons.1 he with rfl | he
      · exact h.lt_next _ hmem
      · exact h.lt_next _ (mem_unlink.1 he).1
    · show nodeOf st r :: unlink st.lruList (nodeOf st r).addr = _
      rw [List.map_cons]
      congr 1
      conv_lhs => rw [h.list_eq]
      exact unlink_map (nodeOf st) hnd2 hro
    · intro x hx
      rcases List.mem_cons.1 hx with rfl | hx
      · exact h.has_key _ hro
      · exact h.has_key _ (List.mem_filter.1 hx).1
    · intro x
      rw [hpu, ← h.mem_iff x]
      constructor
      · intro hx
        rcases List.mem_cons.1 hx with rfl | hx
        · exact hro
        · exact (List.mem_filter.1 hx).1
      · intro hx
        by_cases hxr : x = r
        · rw [hxr]; exact List.mem_cons_self _ _
        · exact List.mem_cons_of_mem _ (List.mem_filter.2 ⟨hx, by simpa using hxr⟩)
    · intro x hx
      rw [hpu]
      by_cases hxr : x = r
      · rw [hxr]; exact hpr
      · rw [hlx x hxr] at hx
        exact h.touched x hx
    · rw [List.pairwise_cons]
      constructor
      · intro b hb
        have hbr : b ≠ r := by simpa using (List.mem_filter.1 hb).2
        rw [hlr, hlx b hbr]
        exact Nat.lt_succ_of_le (lastTouch_le pre b)
      · refine List.Pairwise.imp_of_mem ?_ (h.sorted.filter _)
        intro x y hx hy hxy
        have hxr : x ≠ r := by simpa using (List.mem_filter.1 hx).2
        have hyr : y ≠ r := by simpa using (List.mem_filter.1 hy).2
        rw [hlx x hxr, hlx y hyr]
        exact hxy
  · -- push
    have hpr : pushed pre r = false := (hmr r hr).2 hop
    have hro : r ∉ order := by
      rw [h.mem_iff r, hpr]; simp
    have htm : ∀ x, touches m x = true ↔ x = r := by
      intro x
      rw [touches_iff, hr]
      simp [hop, eq_comm]
    have hpm : ∀ x, pushOf m x = true ↔ x = r := by
      intro x
      rw [pushOf_iff, hr]
      simp [hop, eq_comm]
    have hlr : lastTouch (pre ++ [m]) r = pre.length + 1 := by
      rw [lastTouch_snoc, (htm r).2 rfl]; simp
    have hlx : ∀ x, x ≠ r → lastTouch (pre ++ [m]) x = lastTouch pre x := by
      intro x hx
      have : touches m x = false := by
        rw [← Bool.not_eq_true, htm]; exact hx
      rw [lastTouch_snoc, this]; simp
    have hne : ∀ x ∈ order, x ≠ r := fun x hx hxr => hro (hxr ▸ hx)
    refine ⟨r :: order, ?_, ?_, ?_, ?_, ?_, ?_, ?_⟩
    · simp only [List.map_cons, List.nodup_cons, List.mem_map, not_exists, not_and]
      exact ⟨fun x hx hxa => absurd (h.lt_next x hx) (by omega), h.nodup⟩
    · intro e he
      rcases List.mem_cons.1 he with rfl | he
      · simp
      · exact Nat.lt_succ_of_lt (h.lt_next e he)
    · simp only [List.map_cons]
      congr 1
      · simp [nodeOf]
      · rw [h.list_eq]
        apply List.map_congr_left
        intro x hx
        simp [nodeOf, hne x hx]
    · intro x hx
      simp only
      rcases List.mem_cons.1 hx with rfl | hx
      · simp
      · simp only [hne x hx, if_false]
        exact h.has_key x hx
    · intro x
      rw [pushed_snoc, Bool.or_eq_true, hpm, ← h.mem_iff x, List.mem_cons]
      tauto
    · intro x hx
      rw [pushed_snoc, Bool.or_eq_true, hpm]
      by_cases hxr : x = r
      · exact Or.inr hxr
      · rw [hlx x hxr] at hx
        exact Or.inl (h.touched x hx)
    · rw [List.pairwise_cons]
      constructor
      · intro b hb
        rw [hlr, hlx b (hne b hb)]
        exact Nat.lt_succ_of_le (lastTouch_le pre b)
      · refine List.Pairwise.imp_of_mem ?_ h.sorted
        intro x y hx hy hxy
        rw [hlx x (hne x hx), hlx y (hne y hy)]
        exact hxy
  · exact absurd hop hnodel
  · refine ⟨order, h.same ?_⟩
    intro x
    rw [← Bool.not_eq_true, touches_iff]
    rintro ⟨h1 | h1, _⟩ <;> rw [hop] at h1 <;> exact absurd h1 (by decide)
  · refine ⟨order, h.same ?_⟩
    intro x
    rw [← Bool.not_eq_true, touches_iff]
    rintro ⟨h2 | h2, _⟩
    · exact h1 h2
    · exact h0 h2

theorem lruOperations_cons_some {st st1 : LruState} {m : lruMsg} {ms : List lruMsg}
    {outs : List String} (h : lruOperations st (m :: ms) = some (st1, outs)) :
    ∃ st2 out outs2, lruStep st m = some (st2, out) ∧
      lruOperations st2 ms = some (st1, outs2) ∧ outs = out.toList ++ outs2 := by
  unfold lruOperations at h
  cases hs : lruStep st m with
  | none => simp [hs] at h
  | some p =>
    obtain ⟨st2, out⟩ := p
    cases hr : lruOperations st2 ms with
    | none => simp [hs, hr] at h
    | some q =>
      obtain ⟨st3, outs3⟩ := q
      simp only [hs, hr, Option.some.injEq, Prod.mk.injEq] at h
      exact ⟨st2, out, outs3, rfl, h.1 ▸ hr, h.2.symm⟩

/-- A run that does not panic never changes the request URL of a response. -/
theorem lruOperations_requestURL {cmds : List lruMsg} {st st1 : LruState}
    {outs : List String} (h : lruOperations st cmds = some (st1, outs)) (r : Nat) :
    (st1.responses r).requestURL = (st.responses r).requestURL := by
  induction cmds generalizing st outs with
  | nil =>
    simp only [lruOperations, Option.some.injEq, Prod.mk.injEq] at h
    rw [← h.1]
  | cons m ms ih =>
    obtain ⟨st2, out, outs2, hs, hr, -⟩ := lruOperations_cons_some h
    rw [ih hr, lruStep_requestURL hs]

/-- A run keeps the link between history and state. -/
theorem VictimInv.run {cmds pre : List lruMsg} {st st1 : LruState} {order : List Nat}
    {outs : List String} (h : VictimInv pre st order)
    (hok : pushedOnceBeforeMoves pre cmds = true)
    (hrun : lruOperations st cmds = some (st1, outs)) :
    ∃ order1, VictimInv (pre ++ cmds) st1 order1 := by
  induction cmds generalizing pre st order outs with
  | nil =>
    simp only [lruOperations, Option.some.injEq, Prod.mk.injEq] at hrun
    obtain ⟨rfl, -⟩ := hrun
    exact ⟨order, by simpa using h⟩
  | cons m ms ih =>
    obtain ⟨st2, out, outs2, hs, hr, -⟩ := lruOperations_cons_some hrun
    simp only [pushedOnceBeforeMoves, Bool.and_eq_true] at hok
    obtain ⟨order2, h2⟩ := h.step hok.1 hs
    obtain ⟨order3, h3⟩ := ih h2 hok.2 hr
    exact ⟨order3, by simpa using h3⟩

theorem VictimInv.initial (url : Nat → Option String) : VictimInv [] (initial url) [] := by
  constructor <;> simp [Rest.initial, pushed, lastTouch, lastTouchRev]

/-- A run followed by one more step. -/
theorem lruOperations_snoc {cmds : List lruMsg} {st st1 st2 : LruState} {m : lruMsg}
    {outs : List String} {out : Option String}
    (h : lruOperations st cmds = some (st1, outs)) (hs : lruStep st1 m = some (st2, out)) :
    lruOperations st (cmds ++ [m]) = some (st2, outs ++ out.toList) := by
  induction cmds generalizing st outs with
  | nil =>
    simp only [lruOperations, Option.some.injEq, Prod.mk.injEq] at h
    obtain ⟨rfl, rfl⟩ := h
    simp [lruOperations, hs]
  | cons c cs ih =>
    obtain ⟨st3, out3, outs3, hs3, hr3, rfl⟩ := lruOperations_cons_some h
    simp [lruOperations, hs3, ih hr3]

theorem last_back (st : LruState) (resp : Option Nat) (e : Element)
    (h : st.lruList.getLast? = some e) :
    lruStep st ⟨last, resp⟩ = some (st, some e.Value) := by
  simp [lruStep, Back, h]

/-! ## The Put protocol keeps the keys distinct -/

theorem lruStep_keys_nodup {st st1 : LruState} {m : lruMsg} {out : Option String}
    (hwf : st.WF) (hk : st.keys.Nodup) (hput : pushAllowed st m = true)
    (h : lruStep st m = some (st1, out)) : st1.keys.Nodup := by
  rcases lruStep_cases h with ⟨_, r, a, l, _, _, hl, rfl, _⟩ | ⟨hop, r, k, hr, hkr, rfl, _⟩ |
    ⟨_, r, a, _, _, rfl, _⟩ | ⟨_, e, _, rfl, _⟩ | ⟨_, _, _, _, rfl, _⟩
  · rcases MoveToFront_cases hwf.nodup hl with ⟨e, he, rfl, rfl⟩ | ⟨_, rfl⟩
    · show ((e :: unlink st.lruList e.addr).map Element.Value).Nodup
      rw [List.map_cons, List.nodup_cons]
      constructor
      · rw [List.mem_map]
        rintro ⟨x, hx, hxv⟩
        obtain ⟨hxl, hxa⟩ := mem_unlink.1 hx
        have : x = e := List.inj_on_of_nodup_map hk hxl he hxv
        exact hxa (this ▸ rfl)
      · exact hk.sublist ((unlink_sublist _ _).map _)
    · exact hk
  · have hnot : k ∉ st.keys := by
      simpa [pushAllowed, hop, hr, hkr] using hput
    show ((⟨st.nextAddr, k⟩ :: st.lruList).map Element.Value).Nodup
    rw [List.map_cons, List.nodup_cons]
    exact ⟨hnot, hk⟩
  · exact hk.sublist ((unlink_sublist _ _).map _)
  · exact hk
  · exact hk

theorem followsPut_run {cmds : List lruMsg} {st st1 : LruState} {outs : List String}
    (hwf : st.WF) (hk : st.keys.Nodup) (hput : followsPut st cmds = true)
    (h : lruOperations st cmds = some (st1, outs)) : st1.keys.Nodup := by
  induction cmds generalizing st outs with
  | nil =>
    simp only [lruOperations, Option.some.injEq, Prod.mk.injEq] at h
    exact h.1 ▸ hk
  | cons m ms ih =>
    obtain ⟨st2, out, outs2, hs, hr, -⟩ := lruOperations_cons_some h
    simp only [followsPut, hs, Bool.and_eq_true] at hput
    exact ih (lruStep_wf hwf hs) (lruStep_keys_nodup hwf hk hput.1 hs) hput.2 hr

/-! ## Safety of the goroutine -/

theorem MoveToFront_ne_none (l : List Element) (a : Nat) :
    ∃ l1, MoveToFront l (some a) = some l1 := by
  by_cases hl : ∃ e ∈ l, e.addr = a
  · obtain ⟨e, he, rfl⟩ := hl
    cases hm : MoveToFront l (some e.addr) with
    | some l1 => exact ⟨l1, rfl⟩
    | none =>
      unfold MoveToFront at hm
      simp only at hm
      split at hm
      · simp at hm
      · split_ifs at hm
  · exact ⟨l, MoveToFront_not_linked (fun e he hea => hl ⟨e, he, hea⟩)⟩

/-- A step never resets a handle to nil, and a `push` sets the handle of its response. -/
theorem lruStep_handle {st st1 : LruState} {m : lruMsg} {out : Option String}
    (h : lruStep st m = some (st1, out)) (r : Nat)
    (hr : (st.responses r).listElement ≠ none ∨ pushOf m r = true) :
    (st1.responses r).listElement ≠ none := by
  rcases lruStep_cases h with ⟨hop, _, _, _, _, _, _, rfl, _⟩ | ⟨_, r0, k, hm, _, rfl, _⟩ |
    ⟨hop, _, _, _, _, rfl, _⟩ | ⟨hop, _, _, rfl, _⟩ | ⟨_, h1, _, _, rfl, _⟩
  · rcases hr with hr | hr
    · exact hr
    · rw [pushOf_iff, hop] at hr
      exact absurd hr.1 (by decide)
  · simp only
    split_ifs with hx
    · simp
    · rcases hr with hr | hr
      · exact hr
      · rw [pushOf_iff] at hr
        rw [hm] at hr
        exact absurd (Option.some.inj hr.2).symm hx
  · rcases hr with hr | hr
    · exact hr
    · rw [pushOf_iff, hop] at hr
      exact absurd hr.1 (by decide)
  · rcases hr with hr | hr
    · exact hr
    · rw [pushOf_iff, hop] at hr
      exact absurd hr.1 (by decide)
  · rcases hr with hr | hr
    · exact hr
    · rw [pushOf_iff] at hr
      exact absurd hr.1 h1

/-- Under the traffic condition, with every push carrying a response that has a request
URL, and with every pushed response holding a handle, the step does not panic. -/
theorem lruStep_safe {st : LruState} {pre : List lruMsg} {m : lruMsg}
    (hh : ∀ r, pushed pre r = true → (st.responses r).listElement ≠ none)
    (hok : trafficStepOK st pre m = true)
    (hpush : m.operation = push → ∃ r k, m.resp = some r ∧ (st.responses r).requestURL = some k) :
    ∃ st1 out, lruStep st m = some (st1, out) := by
  simp only [trafficStepOK, Bool.and_eq_true] at hok
  obtain ⟨hmd, hlast⟩ := hok
  unfold lruStep
  split_ifs with h0 h1 h2 h3
  · rw [if_pos (Or.inl h0)] at hmd
    cases hr : m.resp with
    | none => simp [hr] at hmd
    | some r =>
      simp only [hr, Bool.and_eq_true] at hmd
      obtain ⟨a, ha⟩ := Option.ne_none_iff_exists'.1 (hh r hmd.1)
      obtain ⟨l1, hl1⟩ := MoveToFront_ne_none st.lruList a
      simp [ha, hl1]
  · obtain ⟨r, k, hr, hk⟩ := hpush h1
    simp [hr, hk]
  · rw [if_pos (Or.inr h2)] at hmd
    cases hr : m.resp with
    | none => simp [hr] at hmd
    | some r =>
      simp only [hr, Bool.and_eq_true] at hmd
      obtain ⟨a, ha⟩ := Option.ne_none_iff_exists'.1 (hh r hmd.1)
      simp [ha, Remove_some]
  · rw [if_pos h3] at hlast
    cases hl : st.lruList with
    | nil => simp [hl] at hlast
    | cons x t =>
      have hne : (x :: t) ≠ [] := by simp
      simp [Back, List.getLast?_eq_getLast _ hne]
  · exact ⟨_, _, rfl⟩

theorem pushesHaveURL_cons (url : Nat → Option String) (m : lruMsg) (ms : List lruMsg) :
    pushesHaveURL url (m :: ms) = true ↔
      (m.operation = push → ∃ r k, m.resp = some r ∧ url r = some k) ∧
      pushesHaveURL url ms = true := by
  simp only [pushesHaveURL, List.all_cons, Bool.and_eq_true, Bool.or_eq_true, bne_iff_ne, ne_eq]
  refine and_congr_left (fun _ => ?_)
  cases hr : m.resp with
  | none => simp
  | some r =>
    simp only
    constructor
    · intro h hp
      rcases h with h | h
      · exact absurd hp h
      · obtain ⟨k, hk⟩ := Option.isSome_iff_exists.1 h
        exact ⟨r, k, rfl, hk⟩
    · intro h
      by_cases hp : m.operation = push
      · obtain ⟨r1, k, h1, hk⟩ := h hp
        cases h1
        exact Or.inr (by simp [hk])
      · exact Or.inl hp

/-- A run under the traffic condition, with well-formed pushes, does not panic. -/
theorem lruOperations_safe {url : Nat → Option String} {cmds pre : List lruMsg}
    {st : LruState}
    (hu : ∀ r, (st.responses r).requestURL = url r)
    (hh : ∀ r, pushed pre r = true → (st.responses r).listElement ≠ none)
    (hok : wellFormedTraffic st pre cmds = true) (hpush : pushesHaveURL url cmds = true) :
    ∃ st1 outs, lruOperations st cmds = some (st1, outs) := by
  induction cmds generalizing pre st with
  | nil => exact ⟨st, [], rfl⟩
  | cons m ms ih =>
    rw [pushesHaveURL_cons] at hpush
    have hok1 : trafficStepOK st pre m = true := by
      simp only [wellFormedTraffic, Bool.and_eq_true] at hok
      exact hok.1
    obtain ⟨st1, out, hs⟩ := lruStep_safe hh hok1 (fun hp => by
      obtain ⟨r, k, hr, hk⟩ := hpush.1 hp
      exact ⟨r, k, hr, by rw [hu, hk]⟩)
    simp only [wellFormedTraffic, hs, Bool.and_eq_true] at hok
    have hu1 : ∀ r, (st1.responses r).requestURL = url r := fun r => by
      rw [lruStep_requestURL hs, hu]
    have hh1 : ∀ r, pushed (pre ++ [m]) r = true → (st1.responses r).listElement ≠ none := by
      intro r hr
      rw [pushed_snoc, Bool.or_eq_true] at hr
      rcases hr with hr | hr
      · exact lruStep_handle hs r (Or.inl (hh r hr))
      · exact lruStep_handle hs r (Or.inr hr)
    obtain ⟨st2, outs, hrun⟩ := ih hu1 hh1 hok.2 hpush.2
    exact ⟨st2, out.toList ++ outs, by simp [lruOperations, hs, hrun]⟩

theorem lruOperations_append_some {a b : List lruMsg} {st st2 : LruState}
    {outs : List String} (h : lruOperations st (a ++ b) = some (st2, outs)) :
    ∃ st1 o1 o2, lruOperations st a = some (st1, o1) ∧
      lruOperations st1 b = some (st2, o2) := by
  induction a generalizing st outs with
  | nil => exact ⟨st, [], outs, rfl, h⟩
  | cons m ms ih =>
    rw [List.cons_append] at h
    obtain ⟨st3, out, outs3, hs, hr, -⟩ := lruOperations_cons_some h
    obtain ⟨st1, o1, o2, h1, h2⟩ := ih hr
    exact ⟨st1, out.toList ++ o1, o2, by simp [lruOperations, hs, h1], h2⟩

theorem lruStep_stale {st st1 : LruState} {m : lruMsg} {out : Option String} {r : Nat}
    (hwf : st.WF) (hst : Stale st r) (hm : pushOf m r = false)
    (h : lruStep st m = some (st1, out)) : Stale st1 r := by
  obtain ⟨a, ha, hna⟩ := hst
  rcases lruStep_cases h with ⟨_, r0, a0, l, _, _, hl, rfl, _⟩ | ⟨hop, r0, k, hr0, _, rfl, _⟩ |
    ⟨_, r0, a0, _, _, rfl, _⟩ | ⟨_, _, _, rfl, _⟩ | ⟨_, _, _, _, rfl, _⟩
  · rcases MoveToFront_cases hwf.nodup hl with ⟨e, he, rfl, rfl⟩ | ⟨_, rfl⟩
    · refine ⟨a, ha, ?_⟩
      intro x hx
      rcases List.mem_cons.1 hx with rfl | hx
      · exact hna _ he
      · exact hna _ (mem_unlink.1 hx).1
    · exact ⟨a, ha, hna⟩
  · have hne : r ≠ r0 := by
      intro hrr
      rw [← Bool.not_eq_true, pushOf_iff] at hm
      exact hm ⟨hop, hrr ▸ hr0⟩
    refine ⟨a, by simp [hne, ha], ?_⟩
    intro x hx
    rcases List.mem_cons.1 hx with rfl | hx
    · have := hwf.handle_lt r a ha
      simp only
      omega
    · exact hna _ hx
  · exact ⟨a, ha, fun x hx => hna _ (mem_unlink.1 hx).1⟩
  · exact ⟨a, ha, hna⟩
  · exact ⟨a, ha, hna⟩

theorem lruOperations_stale {cmds : List lruMsg} {st st1 : LruState} {outs : List String}
    {r : Nat} (hwf : st.WF) (hst : Stale st r) (hm : ∀ m ∈ cmds, pushOf m r = false)
    (h : lruOperations st cmds = some (st1, outs)) : Stale st1 r := by
  induction cmds generalizing st outs with
  | nil =>
    simp only [lruOperations, Option.some.injEq, Prod.mk.injEq] at h
    exact h.1 ▸ hst
  | cons m ms ih =>
    obtain ⟨st2, out, outs2, hs, hr, -⟩ := lruOperations_cons_some h
    exact ih (lruStep_wf hwf hs) (lruStep_stale hwf hst (hm m (List.mem_cons_self _ _)) hs)
      (fun x hx => hm x (List.mem_cons_of_mem _ hx)) hr

theorem stale_noop {st : LruState} {r : Nat} (hst : Stale st r) :
    lruStep st ⟨move, some r⟩ = some (st, none) ∧
    lruStep st ⟨delete, some r⟩ = some (st, none) := by
  obtain ⟨a, ha, hna⟩ := hst
  constructor
  · simp [lruStep, ha, MoveToFront_not_linked hna]
  · simp [lruStep, ha, Remove_not_linked hna]

/-- After a `delete` for `r` the handle of `r` is stale. -/
theorem delete_stale {st st1 : LruState} {out : Option String} {r : Nat}
    (h : lruStep st ⟨delete, some r⟩ = some (st1, out)) : Stale st1 r := by
  rcases lruStep_cases h with ⟨hop, _⟩ | ⟨hop, _⟩ |
    ⟨_, r0, a0, hr0, ha0, rfl, _⟩ | ⟨hop, _⟩ | ⟨_, _, hop, _⟩
  · simp at hop
  · simp at hop
  · simp only [Option.some.injEq] at hr0
    subst hr0
    exact ⟨a0, ha0, fun x hx => (mem_unlink.1 hx).2⟩
  · simp at hop
  · simp at hop

theorem putState_run : lruOperations (initial demoUrl) putCmds = some (putState, []) := rfl

/-! ## Every node has an owner, every pushed response a node -/

theorem deleteOf_iff (m : lruMsg) (r : Nat) :
    deleteOf m r = true ↔ m.operation = delete ∧ m.resp = some r := by
  simp [deleteOf]

/-- Under the Put protocol a step keeps every node owned by a response with its key. -/
theorem lruStep_owned {st st1 : LruState} {m : lruMsg} {out : Option String}
    (hwf : st.WF) (hown : Owned st) (hput : pushAllowed st m = true)
    (h : lruStep st m = some (st1, out)) : Owned st1 := by
  rcases lruStep_cases h with ⟨_, r, a, l, _, _, hl, rfl, _⟩ | ⟨hop, r, k, hr, hkr, rfl, _⟩ |
    ⟨_, r, a, _, _, rfl, _⟩ | ⟨_, e, _, rfl, _⟩ | ⟨_, _, _, _, rfl, _⟩
  · rcases MoveToFront_cases hwf.nodup hl with ⟨e, he, rfl, rfl⟩ | ⟨_, rfl⟩
    · intro x hx
      rcases List.mem_cons.1 hx with rfl | hx
      · exact hown _ he
      · exact hown _ (mem_unlink.1 hx).1
    · exact hown
  · have hnot : k ∉ st.keys := by
      simpa [pushAllowed, hop, hr, hkr] using hput
    intro x hx
    rcases List.mem_cons.1 hx with rfl | hx
    · exact ⟨r, by simp⟩
    · obtain ⟨r1, h1, h2⟩ := hown x hx
      have hne : r1 ≠ r := by
        intro hrr
        rw [hrr, hkr] at h2
        have hk : k = x.Value := Option.some.inj h2
        exact hnot (hk ▸ List.mem_map_of_mem Element.Value hx)
      exact ⟨r1, by simp [hne, h1, h2]⟩
  · intro x hx
    exact hown _ (mem_unlink.1 hx).1
  · exact hown
  · exact hown

theorem followsPut_owned {cmds : List lruMsg} {st st1 : LruState} {outs : List String}
    (hwf : st.WF) (hown : Owned st) (hput : followsPut st cmds = true)
    (h : lruOperations st cmds = some (st1, outs)) : Owned st1 := by
  induction cmds generalizing st outs with
  | nil =>
    simp only [lruOperations, Option.some.injEq, Prod.mk.injEq] at h
    exact h.1 ▸ hown
  | cons m ms ih =>
    obtain ⟨st2, out, outs2, hs, hr, -⟩ := lruOperations_cons_some h
    simp only [followsPut, hs, Bool.and_eq_true] at hput
    exact ih (lruStep_wf hwf hs) (lruStep_owned hwf hown hput.1 hs) hput.2 hr

/-- A step that is not a `delete` for `r` keeps the handle of `r` linked, and a `push`
for `r` links it. -/
theorem lruStep_live {st st1 : LruState} {m : lruMsg} {out : Option String} {r : Nat}
    (hwf : st.WF) (hl : Live st r ∨ pushOf m r = true) (hnd : deleteOf m r = false)
    (h : lruStep st m = some (st1, out)) : Live st1 r := by
  have hnp : ∀ {P : Prop}, m.operation ≠ push → (Live st r → P) → P := by
    intro P hop hP
    rcases hl with hl | hl
    · exact hP hl
    · exact absurd ((pushOf_iff m r).1 hl).1 hop
  rcases lruStep_cases h with ⟨hop, r0, a, l, _, _, hml, rfl, _⟩ |
    ⟨hop, r0, k, hr0, _, rfl, _⟩ | ⟨hop, r0, a, hr0, ha0, rfl, _⟩ | ⟨hop, _, _, rfl, _⟩ |
    ⟨_, hop, _, _, rfl, _⟩
  · refine hnp (by rw [hop]; decide) ?_
    rintro ⟨x, hx, hxa⟩
    rcases MoveToFront_cases hwf.nodup hml with ⟨e, he, rfl, rfl⟩ | ⟨_, rfl⟩
    · by_cases hxe : x.addr = e.addr
      · have : x = e := addr_inj hwf.nodup hx he hxe
        exact ⟨e, List.mem_cons_self _ _, this ▸ hxa⟩
      · exact ⟨x, List.mem_cons_of_mem _ (mem_unlink.2 ⟨hx, hxe⟩), hxa⟩
    · exact ⟨x, hx, hxa⟩
  · by_cases hrr : r = r0
    · exact ⟨⟨st.nextAddr, k⟩, List.mem_cons_self _ _, by simp [hrr]⟩
    · rcases hl with hl | hl
      · obtain ⟨x, hx, hxa⟩ := hl
        exact ⟨x, List.mem_cons_of_mem _ hx, by simp [hrr, hxa]⟩
      · rw [pushOf_iff, hr0] at hl
        exact absurd (Option.some.inj hl.2).symm hrr
  · refine hnp (by rw [hop]; decide) ?_
    rintro ⟨x, hx, hxa⟩
    have hrr : r0 ≠ r := by
      intro hrr
      rw [← Bool.not_eq_true, deleteOf_iff] at hnd
      exact hnd ⟨hop, hrr ▸ hr0⟩
    have hne : x.addr ≠ a := by
      intro hxe
      rw [hxe] at hxa
      exact hrr (hwf.handle_inj r0 r a ha0 hxa)
    exact ⟨x, mem_unlink.2 ⟨hx, hne⟩, hxa⟩
  · exact hnp (by rw [hop]; decide) id
  · exact hnp hop id

theorem lruOperations_live {cmds : List lruMsg} {st st1 : LruState} {outs : List String}
    {r : Nat} (hwf : st.WF) (hl : Live st r) (hnd : ∀ m ∈ cmds, deleteOf m r = false)
    (h : lruOperations st cmds = some (st1, outs)) : Live st1 r := by
  induction cmds generalizing st outs with
  | nil =>
    simp only [lruOperations, Option.some.injEq, Prod.mk.injEq] at h
    exact h.1 ▸ hl
  | cons m ms ih =>
    obtain ⟨st2, out, outs2, hs, hr, -⟩ := lruOperations_cons_some h
    exact ih (lruStep_wf hwf hs)
      (lruStep_live hwf (Or.inl hl) (hnd m (List.mem_cons_self _ _)) hs)
      (fun x hx => hnd x (List.mem_cons_of_mem _ hx)) hr

/-! ## The recency actor: claims C1, C2, C3, C4, C8, C10 -/

/-- C2. Recency order: in a well-formed state, a `push` for a response with a request URL
puts a node with that key in front of the unchanged old list; a `move` for a response
whose handle is a linked node puts that node, which holds the response's key, in front,
keeps the order of all other nodes and keeps the length. -/
theorem recency_order_after_touch (st : LruState) (r : Nat) (hwf : st.WF) :
    (∀ k, (st.responses r).requestURL = some k →
      ∃ st1, lruStep st ⟨push, some r⟩ = some (st1, none) ∧
        st1.keys.head? = some k ∧
        (st1.responses r).listElement = (st1.lruList.head?).map Element.addr ∧
        st1.lruList.tail = st.lruList) ∧
    (∀ e, e ∈ st.lruList → (st.responses r).listElement = some e.addr →
      ∃ st1, lruStep st ⟨move, some r⟩ = some (st1, none) ∧
        st1.lruList.head? = some e ∧
        (st.responses r).requestURL = some e.Value ∧
        st1.keys.head? = (st1.responses r).requestURL ∧
        st1.lruList.tail = st.lruList.filter (fun x => x ≠ e) ∧
        st1.lruList.length = st.lruList.length) := by
  constructor
  · intro k hk
    refine ⟨_, by simp only [lruStep, hk]; rfl, ?_, ?_, ?_⟩ <;> simp [LruState.keys, PushFront]
  · intro e he ha
    have hkey := hwf.handle_key r e he ha
    have hfilter : st.lruList.filter (fun x => x ≠ e) = unlink st.lruList e.addr := by
      unfold unlink
      apply List.filter_congr
      intro x hx
      by_cases hxe : x = e
      · simp [hxe]
      · have : x.addr ≠ e.addr := fun hh => hxe (addr_inj hwf.nodup hx he hh)
        simp [hxe, this]
    refine ⟨{ st with lruList := e :: unlink st.lruList e.addr }, ?_, rfl, hkey, ?_, ?_, ?_⟩
    · simp [lruStep, ha, MoveToFront_linked hwf.nodup he]
    · simp [LruState.keys, hkey]
    · exact hfilter.symm
    · simp [unlink_length hwf.nodup he]

/-- C2 at the state reached by push a, push b, push c, move a, push d: moving `b` gives
the order b, d, a, c. -/
theorem recency_order_after_touch_witness :
    ∃ st1, lruStep demoState ⟨move, some 1⟩ = some (st1, none) ∧
      st1.lruList.head? = some ⟨1, "b"⟩ ∧
      st1.lruList.tail = demoState.lruList.filter (fun x => x ≠ ⟨1, "b"⟩) ∧
      st1.lruList.length = 4 := by
  obtain ⟨st1, h1, h2, -, -, h5, h6⟩ :=
    (recency_order_after_touch demoState 1 demoState_wf).2 ⟨1, "b"⟩ (by decide) (by decide)
  exact ⟨st1, h1, h2, h5, h6⟩

/-- C1. LRU victim selection: after a command sequence, processed from the empty list,
in which every response is pushed once, before any move for it, and no delete occurs, a
`last` command replies with the key of the response whose most recent push-or-move is
the oldest among all pushed responses and leaves the state unchanged, both as a step
from the state reached and as the last command of the run; such a response exists as
soon as one response has been pushed. -/
theorem lru_victim_selection (url : Nat → Option String) (cmds : List lruMsg)
    (st : LruState) (replies : List String)
    (hrun : lruOperations (initial url) cmds = some (st, replies))
    (htrace : pushedOnceBeforeMoves [] cmds = true) :
    (∀ r, isVictim cmds r → ∃ k, url r = some k ∧
      ∀ resp, lruStep st ⟨last, resp⟩ = some (st, some k) ∧
        lruOperations (initial url) (cmds ++ [⟨last, resp⟩]) = some (st, replies ++ [k])) ∧
    ((∃ r, pushed cmds r = true) → ∃ r, isVictim cmds r) := by
  obtain ⟨order, hinv⟩ := (VictimInv.initial url).run htrace hrun
  rw [List.nil_append] at hinv
  have hurl : ∀ r, (st.responses r).requestURL = url r := fun r =>
    lruOperations_requestURL hrun r
  constructor
  · intro r ⟨hp, hmin⟩
    have hro : r ∈ order := (hinv.mem_iff r).2 hp
    have hlast : order.getLast? = some r :=
      getLast_of_least hinv.sorted hro (fun x hx => hmin x ((hinv.mem_iff x).1 hx))
    have hk := hinv.has_key r hro
    rw [hurl] at hk
    obtain ⟨k, hk⟩ := Option.ne_none_iff_exists'.1 hk
    refine ⟨k, hk, fun resp => ?_⟩
    have hback : st.lruList.getLast? = some (nodeOf st r) := by
      rw [hinv.list_eq, List.getLast?_map, hlast]; rfl
    have hval : (nodeOf st r).Value = k := by simp [nodeOf, hurl, hk]
    rw [← hval]
    have hstep := last_back st resp _ hback
    exact ⟨hstep, by simpa using lruOperations_snoc hrun hstep⟩
  · rintro ⟨r, hp⟩
    have hro : r ∈ order := (hinv.mem_iff r).2 hp
    have hne : order ≠ [] := List.ne_nil_of_mem hro
    obtain ⟨v, hv⟩ : ∃ v, order.getLast? = some v :=
      ⟨order.getLast hne, List.getLast?_eq_getLast _ hne⟩
    refine ⟨v, (hinv.mem_iff v).1 (List.mem_of_getLast?_eq_some hv), ?_⟩
    intro x hx
    exact least_of_getLast hinv.sorted hv x ((hinv.mem_iff x).2 hx)

/-- C1 on the run push a, push b, push c, move a, push d: the list holds d, a, c, b and
`last` replies "b", the key of the response touched least recently. -/
theorem lru_victim_selection_witness :
    lruOperations (initial demoUrl) demoCmds = some (demoState, []) ∧
    pushedOnceBeforeMoves [] demoCmds = true ∧
    isVictim demoCmds 1 ∧
    demoState.keys = ["d", "a", "c", "b"] ∧
    lruStep demoState ⟨last, none⟩ = some (demoState, some "b") ∧
    lruOperations (initial demoUrl) (demoCmds ++ [⟨last, none⟩]) = some (demoState, ["b"]) := by
  have hv : isVictim demoCmds 1 := by
    refine ⟨by decide, ?_⟩
    intro r1 hr1
    have h4 : r1 = 0 ∨ r1 = 1 ∨ r1 = 2 ∨ r1 = 3 := by
      simp [pushed, demoCmds, pushOf] at hr1
      omega
    rcases h4 with rfl | rfl | rfl | rfl <;> decide
  refine ⟨demoState_run, by decide, hv, by decide, ?_⟩
  obtain ⟨k, hk, hstep⟩ :=
    (lru_victim_selection demoUrl demoCmds demoState [] demoState_run (by decide)).1 1 hv
  have hkb : k = "b" := by
    simp only [demoUrl, Option.some.injEq] at hk
    exact hk.symm
  rw [← hkb]
  exact ⟨(hstep none).1, by simpa using (hstep none).2⟩

/-- C4. No dangling recency entry: in a well-formed state whose keys are pairwise
distinct, `delete` for a response whose handle is a linked node succeeds, the key of the
response is gone from the list, the list is one node shorter and the remaining keys are
the previous ones in the same order. -/
theorem delete_removes_key (st : LruState) (r : Nat) (e : Element) (hwf : st.WF)
    (hkeys : st.keys.Nodup) (he : e ∈ st.lruList)
    (ha : (st.responses r).listElement = some e.addr) :
    ∃ st1, lruStep st ⟨delete, some r⟩ = some (st1, none) ∧
      (st.responses r).requestURL = some e.Value ∧
      e.Value ∉ st1.keys ∧
      st1.lruList.length + 1 = st.lruList.length ∧
      st1.keys = st.keys.filter (fun k => k ≠ e.Value) := by
  have hfilter : st.lruList.filter (fun x => x.Value ≠ e.Value) = unlink st.lruList e.addr := by
    unfold unlink
    apply List.filter_congr
    intro x hx
    have hinj : x.Value = e.Value → x = e :=
      fun hh => List.inj_on_of_nodup_map hkeys hx he hh
    by_cases hxe : x = e
    · simp [hxe]
    · have h1 : x.addr ≠ e.addr := fun hh => hxe (addr_inj hwf.nodup hx he hh)
      have h2 : x.Value ≠ e.Value := fun hh => hxe (hinj hh)
      simp [h1, h2]
  have hk : (unlink st.lruList e.addr).map Element.Value
      = st.keys.filter (fun k => k ≠ e.Value) := by
    rw [← hfilter, LruState.keys, List.filter_map]
    rfl
  refine ⟨{ st with lruList := unlink st.lruList e.addr }, ?_, hwf.handle_key r e he ha,
    ?_, unlink_length hwf.nodup he, hk⟩
  · simp [lruStep, ha, Remove_some]
  · simp only [LruState.keys, hk]
    simp

/-- C8. `last` replies exactly when the list is not empty: on a non-empty list the state
is kept and the key of the back node is sent; on the empty list the step panics, so
nothing is sent. -/
theorem last_replies_iff_nonempty (st : LruState) (resp : Option Nat) :
    ((∃ st1 k, lruStep st ⟨last, resp⟩ = some (st1, some k)) ↔ st.lruList ≠ []) ∧
    (∀ e, st.lruList.getLast? = some e → lruStep st ⟨last, resp⟩ = some (st, some e.Value)) ∧
    (st.lruList = [] ↔ lruStep st ⟨last, resp⟩ = none) := by
  have hstep : lruStep st ⟨last, resp⟩ =
      match st.lruList.getLast? with
      | none => none
      | some e => some (st, some e.Value) := by
    simp [lruStep, Back]
  cases hl : st.lruList.getLast? with
  | none =>
    have hnil : st.lruList = [] := List.getLast?_eq_none_iff.1 hl
    simp [hstep, hl, hnil]
  | some e =>
    have hne : st.lruList ≠ [] := by
      intro hnil
      simp [hnil] at hl
    simp [hstep, hl, hne]

/-- C3. Exactly one recency handle per key: in every state reached from the empty list
by a command sequence that follows the Put protocol, the keys of the list are pairwise
distinct; the node that the handle of a live response points to is exactly the node
holding the key of that response; no two responses share a handle; every node of the
list is the handle of exactly one response, whose key it holds; and every response that
was pushed and not deleted since has its handle linked in the list, on the node with its
key. -/
theorem one_handle_per_key (url : Nat → Option String) (cmds : List lruMsg)
    (st : LruState) (replies : List String)
    (hput : followsPut (initial url) cmds = true)
    (hrun : lruOperations (initial url) cmds = some (st, replies)) :
    st.keys.Nodup ∧
    (∀ r a, (st.responses r).listElement = some a → linked st.lruList a = true →
      ∀ e ∈ st.lruList, (e.addr = a ↔ url r = some e.Value)) ∧
    (∀ r1 r2 a, (st.responses r1).listElement = some a →
      (st.responses r2).listElement = some a → r1 = r2) ∧
    (∀ e ∈ st.lruList, ∃ r, ((st.responses r).listElement = some e.addr ∧
      url r = some e.Value) ∧
      ∀ r1, (st.responses r1).listElement = some e.addr → r1 = r) ∧
    (∀ pre r post, cmds = pre ++ ⟨push, some r⟩ :: post →
      (∀ m ∈ post, deleteOf m r = false) →
      ∃ e ∈ st.lruList, (st.responses r).listElement = some e.addr ∧
        url r = some e.Value ∧
        ∀ x ∈ st.lruList, x.Value = e.Value → x = e) := by
  have hwf : st.WF := lruOperations_wf (initial_wf url) hrun
  have hk : st.keys.Nodup :=
    followsPut_run (initial_wf url) (by simp [LruState.keys, initial]) hput hrun
  have hown : Owned st :=
    followsPut_owned (initial_wf url) (by simp [Owned, initial]) hput hrun
  have hurl : ∀ r, (st.responses r).requestURL = url r := fun r =>
    lruOperations_requestURL hrun r
  refine ⟨hk, ?_, hwf.handle_inj, ?_, ?_⟩
  · intro r a ha hl e he
    obtain ⟨e0, he0, hea0⟩ := linked_iff.1 hl
    subst hea0
    have hkey0 := hwf.handle_key r e0 he0 ha
    rw [hurl] at hkey0
    constructor
    · intro hea
      have : e = e0 := addr_inj hwf.nodup he he0 hea
      rw [this]; exact hkey0
    · intro hkey
      rw [hkey0] at hkey
      have : e0 = e := List.inj_on_of_nodup_map hk he0 he (Option.some.inj hkey)
      rw [this]
  · intro e he
    obtain ⟨r, h1, h2⟩ := hown e he
    rw [hurl] at h2
    exact ⟨r, ⟨h1, h2⟩, fun r1 hr1 => hwf.handle_inj r1 r e.addr hr1 h1⟩
  · intro pre r post hc hpost
    rw [hc] at hrun
    obtain ⟨st1, o1, o2, h1, h2⟩ := lruOperations_append_some hrun
    obtain ⟨st2, out, outs2, hs, hr, -⟩ := lruOperations_cons_some h2
    have hwf1 : st1.WF := lruOperations_wf (initial_wf url) h1
    have hnd : deleteOf ⟨push, some r⟩ r = false := by
      simp [deleteOf]
    have hlive2 : Live st2 r :=
      lruStep_live hwf1 (Or.inr (by simp [pushOf])) hnd hs
    obtain ⟨e, he, hea⟩ := lruOperations_live (lruStep_wf hwf1 hs) hlive2 hpost hr
    have hkey := hwf.handle_key r e he hea
    rw [hurl] at hkey
    exact ⟨e, he, hea, hkey,
      fun x hx hxv => List.inj_on_of_nodup_map hk hx he hxv⟩

/-- C3 on a run that deletes response 0 and pushes it again: the keys b, a are distinct,
the handles of both responses point to the nodes with their keys, the node with key a is
owned by response 0 alone, and response 0, pushed last after its delete, is linked. -/
theorem one_handle_per_key_witness :
    followsPut (initial demoUrl) putCmds = true ∧
    lruOperations (initial demoUrl) putCmds = some (putState, []) ∧
    putState.lruList = [⟨1, "b"⟩, ⟨2, "a"⟩] ∧
    putState.keys.Nodup ∧
    (putState.responses 0).listElement = some 2 ∧
    (∀ e ∈ putState.lruList, (e.addr = 2 ↔ demoUrl 0 = some e.Value)) ∧
    (∃ r, ((putState.responses r).listElement = some 2 ∧ demoUrl r = some "a") ∧
      ∀ r1, (putState.responses r1).listElement = some 2 → r1 = r) ∧
    (∃ e ∈ putState.lruList, (putState.responses 0).listElement = some e.addr ∧
      demoUrl 0 = some e.Value ∧ ∀ x ∈ putState.lruList, x.Value = e.Value → x = e) := by
  have h := one_handle_per_key demoUrl putCmds putState [] (by decide) putState_run
  exact ⟨by decide, putState_run, by decide, h.1, by decide,
    h.2.1 0 2 (by decide) (by decide),
    h.2.2.2.1 ⟨2, "a"⟩ (by decide),
    h.2.2.2.2 [⟨push, some 0⟩, ⟨push, some 1⟩, ⟨delete, some 0⟩] 0 [⟨move, some 1⟩]
      rfl (by decide)⟩

/-- C10, as amended. Actor safety: a command sequence processed from the empty list, in
which every push carries a response with a request URL, every move and delete is for a
response pushed before, and every `last` arrives while the list is non-empty, is
processed without a panic; and once a response has been deleted and not pushed again, a
further move or delete for it does not panic and leaves the state unchanged. -/
theorem actor_safety (url : Nat → Option String) (cmds : List lruMsg)
    (htraffic : wellFormedTraffic (initial url) [] cmds = true)
    (hpush : pushesHaveURL url cmds = true) :
    ∃ st replies, lruOperations (initial url) cmds = some (st, replies) ∧
      ∀ pre r mid, cmds = pre ++ ⟨delete, some r⟩ :: mid →
        (∀ m ∈ mid, pushOf m r = false) →
        lruStep st ⟨move, some r⟩ = some (st, none) ∧
        lruStep st ⟨delete, some r⟩ = some (st, none) := by
  obtain ⟨st, replies, hrun⟩ :=
    @lruOperations_safe url cmds [] (initial url) (fun _ => rfl)
      (by simp [pushed]) htraffic hpush
  refine ⟨st, replies, hrun, ?_⟩
  intro pre r mid hc hmid
  rw [hc] at hrun
  obtain ⟨st1, o1, o2, h1, h2⟩ := lruOperations_append_some hrun
  obtain ⟨st2, out, outs2, hs, hr, -⟩ := lruOperations_cons_some h2
  have hwf1 : st1.WF := lruOperations_wf (initial_wf url) h1
  exact stale_noop (lruOperations_stale (lruStep_wf hwf1 hs) (delete_stale hs) hmid hr)

/-- C10 on push a, push b, delete a, move a, delete a, last: no step panics, `last`
replies "b", and a further move or delete for the deleted response changes nothing. -/
theorem actor_safety_witness :
    wellFormedTraffic (initial demoUrl) [] staleCmds = true ∧
    pushesHaveURL demoUrl staleCmds = true ∧
    ∃ st, lruOperations (initial demoUrl) staleCmds = some (st, ["b"]) ∧
      lruStep st ⟨move, some 0⟩ = some (st, none) ∧
      lruStep st ⟨delete, some 0⟩ = some (st, none) := by
  obtain ⟨st, replies, hrun, hstale⟩ :=
    actor_safety demoUrl staleCmds (by decide) (by decide)
  have hrep : replies = ["b"] := by
    have h2 : (lruOperations (initial demoUrl) staleCmds).map Prod.snd = some ["b"] := by
      decide
    rw [hrun] at h2
    simpa using h2
  subst hrep
  exact ⟨by decide, by decide, st, hrun,
    hstale [⟨push, some 0⟩, ⟨push, some 1⟩] 0
      [⟨move, some 0⟩, ⟨delete, some 0⟩, ⟨last, none⟩] rfl (by decide)⟩

/-- C10, as the claim states its condition: a lone `push` for a response without a
request URL meets the condition (no move, no delete, no `last`), and the step panics;
and in push a, push b, delete a, push a, push c, move a the `move` comes after the
delete of its response and changes the list from c, a, b to a, c, b. -/
theorem actor_safety_counterexample :
    (wellFormedTraffic (initial (fun _ => none)) [] [⟨push, some 0⟩] = true ∧
      lruOperations (initial (fun _ => none)) [⟨push, some 0⟩] = none) ∧
    (wellFormedTraffic (initial demoUrl) [] (repushCmds ++ [⟨move, some 0⟩]) = true ∧
      (lruOperations (initial demoUrl) repushCmds).map (fun p => p.1.keys)
        = some ["c", "a", "b"] ∧
      (lruOperations (initial demoUrl) (repushCmds ++ [⟨move, some 0⟩])).map
        (fun p => p.1.keys) = some ["a", "c", "b"]) := by
  refine ⟨⟨by decide, rfl⟩, by decide, by decide, by decide⟩

/-- C4 on the list d, a, c, b: deleting the response with key c leaves d, a, b. -/
theorem delete_removes_key_witness :
    ∃ st1, lruStep demoState ⟨delete, some 2⟩ = some (st1, none) ∧
      "c" ∉ st1.keys ∧ st1.lruList.length + 1 = 4 ∧ st1.keys = ["d", "a", "b"] := by
  obtain ⟨st1, h1, -, h3, h4, h5⟩ :=
    delete_removes_key demoState 2 ⟨2, "c"⟩ demoState_wf (by decide) (by decide) (by decide)
  refine ⟨st1, h1, h3, h4, ?_⟩
  rw [h5]
  decide

/-! ## The response record: claims C5, C6, C7, C9 -/

theorem wrapInt64_id {x : Int} (h0 : 0 ≤ x) (h1 : x ≤ maxInt64) : wrapInt64 x = x := by
  unfold wrapInt64
  unfold maxInt64 at h1
  omega

/-- The sum that `size` computes, as long as it fits an `int64`. -/
theorem size_eq (L : Layout) (r : Response) (h : HttpResponse)
    (hresp : r.httpResponse = some h)
    (hfit : ((L.overhead + r.byteBody.length + strLen r.etag + strLen h.Proto
      + strLen h.Status : Nat) : Int) ≤ maxInt64) :
    r.size L = some ((L.overhead : Int) + r.byteBody.length + strLen r.etag
      + strLen h.Proto + strLen h.Status) := by
  unfold Layout.overhead at hfit ⊢
  unfold maxInt64 at hfit
  simp only [Response.size, hresp, Option.some.injEq]
  have w : ∀ x : Int, 0 ≤ x → x ≤ 9223372036854775807 → wrapInt64 x = x :=
    fun x h0 h1 => wrapInt64_id h0 h1
  rw [w L.sizeofResponse (by omega) (by omega), w r.byteBody.length (by omega) (by omega),
    w L.sizeofElement (by omega) (by omega), w L.sizeofSkipListNode (by omega) (by omega),
    w L.sizeofTime (by omega) (by omega), w (strLen r.etag) (by omega) (by omega),
    w (strLen h.Proto) (by omega) (by omega), w (strLen h.Status) (by omega) (by omega)]
  rw [w (L.sizeofResponse + r.byteBody.length) (by omega) (by omega)]
  rw [w (L.sizeofResponse + r.byteBody.length + L.sizeofElement) (by omega) (by omega)]
  rw [w (L.sizeofResponse + r.byteBody.length + L.sizeofElement + L.sizeofSkipListNode)
    (by omega) (by omega)]
  rw [w (L.sizeofResponse + r.byteBody.length + L.sizeofElement + L.sizeofSkipListNode
    + L.sizeofTime) (by omega) (by omega)]
  rw [w (L.sizeofResponse + r.byteBody.length + L.sizeofElement + L.sizeofSkipListNode
    + L.sizeofTime + L.sizeofTime) (by omega) (by omega)]
  rw [w (L.sizeofResponse + r.byteBody.length + L.sizeofElement + L.sizeofSkipListNode
    + L.sizeofTime + L.sizeofTime + strLen r.etag) (by omega) (by omega)]
  rw [w (L.sizeofResponse + r.byteBody.length + L.sizeofElement + L.sizeofSkipListNode
    + L.sizeofTime + L.sizeofTime + strLen r.etag + strLen h.Proto) (by omega) (by omega)]
  rw [w (L.sizeofResponse + r.byteBody.length + L.sizeofElement + L.sizeofSkipListNode
    + L.sizeofTime + L.sizeofTime + strLen r.etag + strLen h.Proto + strLen h.Status)
    (by omega) (by omega)]
  push_cast
  ring

/-- C6. Size is a function of four lengths plus a fixed overhead: with `K` the sum of
the five `unsafe.Sizeof` terms, which depends on the layout only, every response with a
non-nil embedded response whose sum fits an `int64` has size `K` plus the lengths of
body, etag, `Proto` and `Status`; and two such responses that agree on the four lengths
have the same size, whatever their pointer fields are. -/
theorem size_deterministic (L : Layout) :
    (∀ (r : Response) (h : HttpResponse), r.httpResponse = some h →
      ((L.overhead + r.byteBody.length + strLen r.etag + strLen h.Proto
        + strLen h.Status : Nat) : Int) ≤ maxInt64 →
      r.size L = some ((L.overhead : Int) + r.byteBody.length + strLen r.etag
        + strLen h.Proto + strLen h.Status)) ∧
    (∀ (r1 r2 : Response) (h1 h2 : HttpResponse),
      r1.httpResponse = some h1 → r2.httpResponse = some h2 →
      r1.byteBody.length = r2.byteBody.length → strLen r1.etag = strLen r2.etag →
      strLen h1.Proto = strLen h2.Proto → strLen h1.Status = strLen h2.Status →
      r1.size L = r2.size L) := by
  constructor
  · intro r h hresp hfit
    exact size_eq L r h hresp hfit
  · intro r1 r2 h1 h2 hr1 hr2 hb he hp hs
    simp only [Response.size, hr1, hr2, hb, he, hp, hs]

/-- C6 on two sample responses of the 64-bit layout: 240 bytes of overhead plus the
lengths, with and without handles set. -/
theorem size_deterministic_witness :
    sampleResponse.size sampleLayout = some (240 + 2 + 3 + 8 + 6) ∧
    shortResponse.size sampleLayout = some (240 + 0 + 3 + 8 + 6) := by
  constructor
  · have h := (size_deterministic sampleLayout).1 sampleResponse _ rfl (by decide)
    rw [h]; decide
  · have h := (size_deterministic sampleLayout).1 shortResponse _ rfl (by decide)
    rw [h]; decide

/-- C5. Size monotonicity: of two responses with non-nil embedded responses that agree
on etag, `Proto` and `Status`, where the size of the one with the longer body fits an
`int64`, the one with the strictly longer body has the strictly greater size, and the
sizes differ by exactly the difference of the body lengths. -/
theorem size_monotone (L : Layout) (r1 r2 : Response) (h1 h2 : HttpResponse)
    (hr1 : r1.httpResponse = some h1) (hr2 : r2.httpResponse = some h2)
    (hetag : r1.etag = r2.etag) (hproto : h1.Proto = h2.Proto)
    (hstatus : h1.Status = h2.Status)
    (hfit : ((L.overhead + r1.byteBody.length + strLen r1.etag + strLen h1.Proto
      + strLen h1.Status : Nat) : Int) ≤ maxInt64)
    (hlen : r2.byteBody.length < r1.byteBody.length) :
    ∃ s1 s2, r1.size L = some s1 ∧ r2.size L = some s2 ∧ s2 < s1 ∧
      s1 - s2 = (r1.byteBody.length : Int) - r2.byteBody.length := by
  have hfit2 : ((L.overhead + r2.byteBody.length + strLen r2.etag + strLen h2.Proto
      + strLen h2.Status : Nat) : Int) ≤ maxInt64 := by
    rw [← hetag, ← hproto, ← hstatus]
    refine le_trans ?_ hfit
    exact_mod_cast by omega
  refine ⟨_, _, size_eq L r1 h1 hr1 hfit, size_eq L r2 h2 hr2 hfit2, ?_, ?_⟩
  · rw [← hetag, ← hproto, ← hstatus]
    have : (r2.byteBody.length : Int) < r1.byteBody.length := by exact_mod_cast hlen
    omega
  · rw [← hetag, ← hproto, ← hstatus]
    ring

/-- C5 on the sample responses: bodies of 2 and 0 bytes, sizes 259 and 257. -/
theorem size_monotone_witness :
    ∃ s1 s2, sampleResponse.size sampleLayout = some s1 ∧
      shortResponse.size sampleLayout = some s2 ∧ s2 < s1 ∧ s1 - s2 = 2 := by
  obtain ⟨s1, s2, h1, h2, h3, h4⟩ :=
    size_monotone sampleLayout sampleResponse shortResponse _ _ rfl rfl rfl rfl rfl
      (by decide) (by decide)
  exact ⟨s1, s2, h1, h2, h3, by simpa [sampleResponse, shortResponse] using h4⟩

/-- C7. The cache-hit flag: `CacheHit` is a total function that returns true exactly
when a value has been stored and it is the boolean true; it returns false when nothing
was stored and when false was stored. -/
theorem cacheHit_tristate (r : Response) :
    (r.CacheHit = true ↔ r.cacheHit = some (AnyValue.bool true)) ∧
    (r.cacheHit = none → r.CacheHit = false) ∧
    (r.cacheHit = some (AnyValue.bool false) → r.CacheHit = false) := by
  unfold Response.CacheHit
  cases hc : r.cacheHit with
  | none => simp
  | some v =>
    cases v with
    | bool b => cases b <;> simp
    | int n => simp
    | str s => simp

theorem fillUpLoop_two {T E : Type} (lib : Library T E) (body : List UInt8) (fill : T)
    (cType : String) :
    fillUpLoop lib body fill 2 0 cType =
      if stringsContains cType cTypeJSON then decoded (lib.jsonUnmarshal body fill)
      else if stringsContains cType cTypeXML then decoded (lib.xmlUnmarshal body fill)
      else if stringsContains (lib.DetectContentType body) cTypeJSON then
        decoded (lib.jsonUnmarshal body fill)
      else if stringsContains (lib.DetectContentType body) cTypeXML then
        decoded (lib.xmlUnmarshal body fill)
      else (fill, some (FillError.errorf "Response format neither JSON nor XML")) := by
  simp only [fillUpLoop, decoded]
  split_ifs <;> simp_all

/-- C9, as amended. Format dispatch of `FillUp` on a response with a non-nil embedded
response: the JSON decoder's result when the lower-cased Content-Type header contains
"application/json"; else the XML decoder's when it contains "application/xml"; else the
same two tests, JSON first, once on the content type detected from the body; and the
error "Response format neither JSON nor XML", with the target untouched, exactly when
none of the four tests succeeds. -/
theorem fillUp_dispatch {T E : Type} (lib : Library T E) (r : Response) (h : HttpResponse)
    (fill : T) (hresp : r.httpResponse = some h) :
    (stringsContains (lib.ToLower h.contentType) cTypeJSON = true →
      r.FillUp lib fill = some (decoded (lib.jsonUnmarshal r.byteBody fill))) ∧
    (stringsContains (lib.ToLower h.contentType) cTypeJSON = false →
      stringsContains (lib.ToLower h.contentType) cTypeXML = true →
      r.FillUp lib fill = some (decoded (lib.xmlUnmarshal r.byteBody fill))) ∧
    (stringsContains (lib.ToLower h.contentType) cTypeJSON = false →
      stringsContains (lib.ToLower h.contentType) cTypeXML = false →
      stringsContains (lib.DetectContentType r.byteBody) cTypeJSON = true →
      r.FillUp lib fill = some (decoded (lib.jsonUnmarshal r.byteBody fill))) ∧
    (stringsContains (lib.ToLower h.contentType) cTypeJSON = false →
      stringsContains (lib.ToLower h.contentType) cTypeXML = false →
      stringsContains (lib.DetectContentType r.byteBody) cTypeJSON = false →
      stringsContains (lib.DetectContentType r.byteBody) cTypeXML = true →
      r.FillUp lib fill = some (decoded (lib.xmlUnmarshal r.byteBody fill))) ∧
    ((∃ t, r.FillUp lib fill =
        some (t, some (FillError.errorf "Response format neither JSON nor XML"))) ↔
      (stringsContains (lib.ToLower h.contentType) cTypeJSON = false ∧
       stringsContains (lib.ToLower h.contentType) cTypeXML = false ∧
       stringsContains (lib.DetectContentType r.byteBody) cTypeJSON = false ∧
       stringsContains (lib.DetectContentType r.byteBody) cTypeXML = false)) ∧
    (stringsContains (lib.ToLower h.contentType) cTypeJSON = false →
      stringsContains (lib.ToLower h.contentType) cTypeXML = false →
      stringsContains (lib.DetectContentType r.byteBody) cTypeJSON = false →
      stringsContains (lib.DetectContentType r.byteBody) cTypeXML = false →
      r.FillUp lib fill =
        some (fill, some (FillError.errorf "Response format neither JSON nor XML"))) := by
  have hf : r.FillUp lib fill =
      some (fillUpLoop lib r.byteBody fill 2 0 (lib.ToLower h.contentType)) := by
    simp [Response.FillUp, hresp]
  rw [hf, fillUpLoop_two]
  have hdec : ∀ (p : T × Option E) (t : T),
      decoded p ≠ (t, some (FillError.errorf "Response format neither JSON nor XML")) := by
    intro p t hp
    obtain ⟨p1, p2⟩ := p
    cases p2 <;> simp [decoded] at hp
  refine ⟨?_, ?_, ?_, ?_, ?_, ?_⟩
  · intro a; simp [a]
  · intro a b; simp [a, b]
  · intro a b c; simp [a, b, c]
  · intro a b c d; simp [a, b, c, d]
  · constructor
    · rintro ⟨t, ht⟩
      rw [Option.some.injEq] at ht
      split_ifs at ht with a b c d
      · exact absurd ht (hdec _ _)
      · exact absurd ht (hdec _ _)
      · exact absurd ht (hdec _ _)
      · exact absurd ht (hdec _ _)
      · simp only [Bool.not_eq_true] at a b c d
        exact ⟨a, b, c, d⟩
    · rintro ⟨a, b, c, d⟩
      exact ⟨fill, by simp [a, b, c, d]⟩
  · intro a b c d; simp [a, b, c, d]

/-- C9 on two sample responses: a JSON header in mixed case goes to the JSON decoder,
and with an empty header the detected "text/xml" matches neither marker. -/
theorem fillUp_dispatch_witness :
    sampleResponse.FillUp sampleLibrary 0 = some (2, none) ∧
    sniffedResponse.FillUp sampleLibrary 0 =
      some (0, some (FillError.errorf "Response format neither JSON nor XML")) := by
  constructor
  · have h := (fillUp_dispatch sampleLibrary sampleResponse _ 0 rfl).1 (by decide)
    rw [h]; decide
  · exact (fillUp_dispatch sampleLibrary sniffedResponse _ 0 rfl).2.2.2.2.2
      (by decide) (by decide) (by decide) (by decide)

/-- C9, as the claim states it for every response: on a response whose embedded
`*http.Response` is nil, `FillUp` panics on `r.Header` and returns neither a decoder's
result nor the format error. -/
theorem fillUp_dispatch_counterexample :
    failedResponse.httpResponse = none ∧
    failedResponse.FillUp sampleLibrary 0 = none := by
  constructor <;> rfl

end Rest
